import Mathlib

/-!
# FileTagManager (src/app.py) — shallow embedding and verification

The store `tags_db` is a Python dict mapping path strings to lists of tag
strings.  We model it as an association list `Db` whose well-formedness
(no duplicate keys) is stated as a hypothesis where it matters, exactly as
a Python dict guarantees it.

Python string helpers (`str.strip`, `str.lower`) are modelled on the ASCII
fragment the program manipulates; `str(Path(p))` is modelled for the POSIX
flavour of `pathlib` (purely syntactic normalisation: collapse separators,
drop `.` components and trailing separators, never absolutise).
-/

/-- The in-memory store: `tags_db`, a dict path → list of tags. -/
abbrev Db := List (String × List String)

/-- Python `str.isspace` characters relevant to `str.strip()` (ASCII fragment:
space, tab, newline, carriage return, vertical tab, form feed). -/
def pySpace (c : Char) : Bool :=
  c.toNat = 32 || c.toNat = 9 || c.toNat = 10 || c.toNat = 13 ||
    c.toNat = 11 || c.toNat = 12

/-- The list form of `str.strip()`. -/
def stripList (l : List Char) : List Char :=
  ((l.dropWhile pySpace).reverse.dropWhile pySpace).reverse

/-- Python `s.strip()`: drop leading and trailing whitespace. -/
def pyStrip (s : String) : String := String.mk (stripList s.toList)

/-- Python `s.lower()` on one ASCII character: map A–Z to a–z. -/
def pyLowerChar (c : Char) : Char :=
  if 65 ≤ c.toNat && c.toNat ≤ 90 then Char.ofNat (c.toNat + 32) else c

/-- Python `s.lower()` on the ASCII fragment. -/
def pyLower (s : String) : String :=
  String.mk (s.toList.map pyLowerChar)

/-- The tag normalisation the code applies before storing or querying:
`tag.strip().lower()` (lines 133, 157, 194 of app.py). -/
def normTag (t : String) : String := pyLower (pyStrip t)

/-- One path component is kept by `pathlib` iff it is non-empty and not `.`. -/
def keepPart (s : String) : Bool := s ≠ "" && s ≠ "."

/-- Split a character list on `/` (the list-level analogue of `splitOn "/"`). -/
def splitSlash : List Char → List (List Char)
  | [] => [[]]
  | c :: rest =>
    if c = '/' then [] :: splitSlash rest
    else
      match splitSlash rest with
      | g :: gs => (c :: g) :: gs
      | [] => [[c]]

/-- Number of leading `/` characters. -/
def leadingSlashes (cs : List Char) : Nat := (cs.takeWhile (fun c => c = '/')).length

/-- Join path components with `/`. -/
def interSlash : List String → String
  | [] => ""
  | [p] => p
  | p :: rest => p ++ "/" ++ interSlash rest

/-- `str(Path(p))` (POSIX flavour): split on `/`, drop empty and `.` parts,
preserve a root (`/`, or the POSIX-special `//`), rejoin; the empty path
prints as `.`.  Purely syntactic — relative paths stay relative. -/
def normPath (p : String) : String :=
  let parts := ((splitSlash p.toList).map String.mk).filter keepPart
  let root :=
    if leadingSlashes p.toList = 2 then "//"
    else if 1 ≤ leadingSlashes p.toList then "/"
    else ""
  if root = "" && parts.isEmpty then "." else root ++ interSlash parts

/-- Python `filepath in self.tags_db` (dict key membership). -/
def dbContains (db : Db) (k : String) : Bool := db.any (fun e => e.1 = k)

/-- Python `self.tags_db.get(filepath, [])`. -/
def dbGet (db : Db) (k : String) : List String :=
  match db.find? (fun e => e.1 = k) with
  | some e => e.2
  | none => []

/-- Python `self.tags_db[filepath] = v`: replace in place if the key exists,
else append (dicts preserve insertion order). -/
def dbSet (db : Db) (k : String) (v : List String) : Db :=
  if dbContains db k then db.map (fun e => if e.1 = k then (k, v) else e)
  else db ++ [(k, v)]

/-- Python `del self.tags_db[filepath]`. -/
def dbDel (db : Db) (k : String) : Db := db.filter (fun e => e.1 ≠ k)

/-- The inner loop of `add_tags` (lines 132–135): for each tag, strip+lower
it and append it to the current list when non-empty and not yet present. -/
def addTagList (cur : List String) (tags : List String) : List String :=
  tags.foldl
    (fun acc tag =>
      let t := normTag tag
      if t ≠ "" ∧ t ∉ acc then acc ++ [t] else acc)
    cur

/-- `FileTagManager.add_tags` (lines 126–138): normalise the path, create an
empty entry when absent, then fold the tags in.  (It ends with `queue_save`;
the persistence side is modelled separately.) -/
def addTags (db : Db) (filepath : String) (tags : List String) : Db :=
  let fp := normPath filepath
  let cur := if dbContains db fp then dbGet db fp else []
  dbSet db fp (addTagList cur tags)

/-- `FileTagManager.get_tags` (lines 182–189). -/
def getTags (db : Db) (filepath : String) : List String :=
  dbGet db (normPath filepath)

/-- Python `list.remove(x)`: delete the first occurrence of `x`. -/
def listRemoveFirst (l : List String) (x : String) : List String :=
  match l with
  | [] => []
  | a :: rest => if a = x then rest else a :: listRemoveFirst rest x

/-- `FileTagManager.remove_tag` (lines 170–180).  Returns the new store and
whether `queue_save` was invoked (it is invoked only inside the guard). -/
def removeTag (db : Db) (filepath : String) (tag : String) : Db × Bool :=
  let fp := normPath filepath
  if dbContains db fp && (dbGet db fp).contains tag then
    let rest := listRemoveFirst (dbGet db fp) tag
    (if rest.isEmpty then dbDel db fp else dbSet db fp rest, true)
  else (db, false)

/-- `FileTagManager.search_by_tags` (lines 191–202): lower+strip every query
tag, keep the paths whose tag list contains all of them. -/
def searchByTags (db : Db) (searchTags : List String) : List String :=
  let q := searchTags.map normTag
  (db.filter (fun e => q.all (fun t => e.2.contains t))).map (fun e => e.1)

/-!
## Debounced persistence scheduler (`_save_worker` / `queue_save`, lines 44–66, 98–102)

Discrete-time model of the one-writer scenario the spec's coalescing
guarantee describes.  `queue` counts items in `_save_queue`, `pending` is
`_pending_changes`, `lastSave` is `_last_save`, `writes` logs each snapshot
`_save_db_with_retry` persists.  The rate limit means the worker cannot
enter its critical section before `lastSave + 1`; mutations issued within
the window `[lastSave, lastSave + 1)` therefore all precede the write, which
is what lets the model serialise them before the worker steps. -/
structure SysState where
  store : Db
  pending : Bool
  lastSave : Nat
  time : Nat
  queue : Nat
  writes : List Db
deriving DecidableEq

/-- `queue_save` (lines 98–102): set `_pending_changes` under the lock and
put a wake-up item on `_save_queue`. -/
def queueSave (s : SysState) : SysState :=
  { s with pending := true, queue := s.queue + 1 }

/-- A mutation: update the in-memory store, then `queue_save` (as
`add_tags` / `remove_tag` / each batch of `add_tags_to_directory` do). -/
def mutate (s : SysState) (f : Db → Db) : SysState :=
  queueSave { s with store := f s.store }

/-- One iteration of the `_save_worker` loop (lines 46–64): take one queue
item, sleep out the remainder of the 1-second window since `_last_save`,
then under the lock write the snapshot iff `_pending_changes` is set. -/
def workerStep (s : SysState) : SysState :=
  if s.queue = 0 then s
  else
    let s1 := { s with queue := s.queue - 1 }
    let wake := max s1.time (s1.lastSave + 1)
    if s1.pending then
      { s1 with
        time := wake
        writes := s1.writes ++ [s1.store]
        pending := false
        lastSave := wake }
    else { s1 with time := wake }

/-- Run the worker until `_save_queue` is drained (one `workerStep` per
queued item). -/
def drainAux : Nat → SysState → SysState
  | 0, s => s
  | n + 1, s => drainAux n (workerStep s)

/-- Drain every currently queued wake-up item. -/
def drain (s : SysState) : SysState := drainAux s.queue s

/-- State right after the last successful save at time `t0`: store `s0`,
flag clear, queue empty. -/
def initState (s0 : Db) (t0 : Nat) : SysState :=
  ⟨s0, false, t0, t0, 0, []⟩

/-- Issue a burst of mutations (each one a store update followed by
`queue_save`), all within the current rate-limit window. -/
def applyMutations (s : SysState) (ms : List (Db → Db)) : SysState :=
  ms.foldl mutate s

/-!
## `_save_db_with_retry` (lines 68–96)

Modelled attempt-by-attempt through an outcome oracle: `.ok` — the temp
file is written, fsynced and renamed onto the target; `.exc` — some step of
the attempt raises; `.winPerm` — the `sys.platform == "win32"` branch hits
a `PermissionError` while removing the existing target (that branch sleeps
`delay` and `continue`s WITHOUT doubling the delay).  `written = some c`
means the target file was replaced and now holds content `c`. -/
inductive SaveOutcome where
  | ok
  | exc
  | winPerm
deriving DecidableEq

structure SaveResult where
  sleeps : List Nat
  attempts : Nat
  raised : Bool
  written : Option String
deriving DecidableEq

/-- The `for attempt in range(max_retries)` loop.  `remaining` is the number
of loop iterations left; falling out of the loop (possible via the
`continue` path) returns `None` normally, with nothing written. -/
def saveRetryGo (content : String) (outcomes : Nat → SaveOutcome) :
    Nat → Nat → Nat → List Nat → SaveResult
  | 0, attempt, _, sleeps => ⟨sleeps, attempt, false, none⟩
  | r + 1, attempt, delay, sleeps =>
    match outcomes attempt with
    | .ok => ⟨sleeps, attempt + 1, false, some content⟩
    | .winPerm => saveRetryGo content outcomes r (attempt + 1) delay (sleeps ++ [delay])
    | .exc =>
      if r = 0 then ⟨sleeps, attempt + 1, true, none⟩
      else saveRetryGo content outcomes r (attempt + 1) (delay * 2) (sleeps ++ [delay])

/-- `_save_db_with_retry(max_retries=3, delay=1)` saving `db`: a successful
attempt replaces the target with the serialised snapshot `dumpsPlaceholder`.
The serialisation itself is `dumps` below; it is passed in as `content`. -/
def saveDbWithRetry (content : String) (outcomes : Nat → SaveOutcome) : SaveResult :=
  saveRetryGo content outcomes 3 0 1 []

/-!
## Batch tag applier (`add_tags_to_directory`, lines 140–168)

The directory is a tree; `walkFiles` is `os.walk(directory)` flattened in
its top-down order, joining names with `os.path.join` (POSIX separator).
Note the function has no recursive/top-level flag: it always walks the
whole tree (the UI's non-recursive branch bypasses it and calls `add_tags`
per file). -/
inductive FsTree where
  | node : List String → List (String × FsTree) → FsTree

mutual

/-- All file paths under `root`, in `os.walk` top-down order: the files of
the current directory first, then each subdirectory recursively. -/
def walkFiles (root : String) : FsTree → List String
  | .node files subdirs =>
    files.map (fun f => root ++ "/" ++ f) ++ walkSubdirs root subdirs

def walkSubdirs (root : String) : List (String × FsTree) → List String
  | [] => []
  | (n, t) :: rest => walkFiles (root ++ "/" ++ n) t ++ walkSubdirs root rest

end

/-- What a top-level-only enumeration of the directory would return
(what `os.listdir` filtering to files gives the UI's non-recursive branch). -/
def topLevelFiles (root : String) : FsTree → List String
  | .node files _ => files.map (fun f => root ++ "/" ++ f)

/-- The per-file body of the batch loop (lines 154–159): identical to
`add_tags`'s tag loop but applied to the raw walked path (no `Path()`
normalisation here). -/
def addTagsFileRaw (db : Db) (fp : String) (tags : List String) : Db :=
  let cur := if dbContains db fp then dbGet db fp else []
  dbSet db fp (addTagList cur tags)

/-- Apply one batch of files. -/
def applyBatch (db : Db) (batch : List String) (tags : List String) : Db :=
  batch.foldl (fun d fp => addTagsFileRaw d fp tags) db

structure DirResult where
  db : Db
  saves : Nat
  progress : List (Nat × Nat)
  count : Nat
deriving DecidableEq

/-- Number of loop iterations (batches) for `n` files. -/
def numBatches (n : Nat) : Nat := (n + 99) / 100

/-- `range(0, total_files, batch_size)` with `batch_size = 100`. -/
def batchStarts (total : Nat) : List Nat :=
  (List.range (numBatches total)).map (fun k => k * 100)

/-- The `for i in range(0, total_files, batch_size)` loop body, iterated
over the list of batch start indices: slice `files[i : i + 100]`, tag the
slice, `queue_save`, then report
`progress_callback(min(i + batch_size, total_files), total_files)`. -/
def dirGo (tags : List String) (files : List String) (total : Nat) :
    Db → List Nat → Nat → List (Nat × Nat) → DirResult
  | db, [], saves, progress => ⟨db, saves, progress, total⟩
  | db, i :: starts, saves, progress =>
    let batch := (files.drop i).take 100
    dirGo tags files total (applyBatch db batch tags) starts (saves + 1)
      (progress ++ [(min (i + 100) total, total)])

/-- `FileTagManager.add_tags_to_directory(directory, tags, progress_callback)`:
walk, batch, tag; returns the final store, the number of `queue_save`
signals, the recorded progress calls and the returned `total_files`. -/
def addTagsToDirectory (db : Db) (root : String) (tree : FsTree) (tags : List String) :
    DirResult :=
  let files := walkFiles root tree
  dirGo tags files files.length db (batchStarts files.length) 0 []

/-- The sequence of `progress_callback` arguments the loop produces. -/
def expectedProgress (n : Nat) : List (Nat × Nat) :=
  (List.range (numBatches n)).map (fun k => (min ((k + 1) * 100) n, n))

/-!
## Serialisation (`json.dump(self.tags_db, temp_file, indent=4)`, line 77)

Model of CPython's `json` encoder/decoder on the fragment the program
persists: an object whose values are arrays of strings.  The encoder
follows `py_encode_basestring_ascii` (default `ensure_ascii=True`,
`indent=4`): `\"`, `\\`, `\b`, `\f`, `\n`, `\r`, `\t` short escapes,
printable ASCII 0x20–0x7e literal, everything else `\uXXXX` with lowercase
hex and surrogate pairs beyond the BMP.  The decoder is `json.loads`
restricted to that shape; a `\uXXXX` lone surrogate (which Python would
keep as an unpaired surrogate, unrepresentable in `Char`) is rejected. -/
def hexDigitChar (n : Nat) : Char :=
  if n < 10 then Char.ofNat (48 + n) else Char.ofNat (87 + n)

/-- `'\u%04x' % n`: four lowercase hex digits. -/
def hex4 (n : Nat) : List Char :=
  [hexDigitChar (n / 4096 % 16), hexDigitChar (n / 256 % 16),
   hexDigitChar (n / 16 % 16), hexDigitChar (n % 16)]

/-- Encode one character of a JSON string (`ensure_ascii=True`). -/
def escChar (c : Char) : List Char :=
  if c = '\\' then ['\\', '\\']
  else if c = '"' then ['\\', '"']
  else if c = '\n' then ['\\', 'n']
  else if c = '\r' then ['\\', 'r']
  else if c = '\t' then ['\\', 't']
  else if c = '\x08' then ['\\', 'b']
  else if c = '\x0c' then ['\\', 'f']
  else if 0x20 ≤ c.toNat && c.toNat ≤ 0x7e then [c]
  else if c.toNat < 0x10000 then '\\' :: 'u' :: hex4 c.toNat
  else
    ('\\' :: 'u' :: hex4 (0xD800 + (c.toNat - 0x10000) / 0x400)) ++
      ('\\' :: 'u' :: hex4 (0xDC00 + (c.toNat - 0x10000) % 0x400))

/-- Encode a JSON string with its quotes. -/
def encString (s : String) : List Char :=
  '"' :: (s.toList.map escChar).flatten ++ ['"']

/-- Join encoded items with a separator. -/
def joinSep (sep : List Char) : List (List Char) → List Char
  | [] => []
  | [x] => x
  | x :: y :: rest => x ++ sep ++ joinSep sep (y :: rest)

/-- Encode one tag array at nesting depth 1 (`indent=4`): empty arrays
print as `[]`, otherwise one 8-space-indented element per line. -/
def encTags (ts : List String) : List Char :=
  match ts with
  | [] => ['[', ']']
  | _ =>
    ['[', '\n'] ++
      joinSep [',', '\n'] (ts.map (fun t => "        ".toList ++ encString t)) ++
      ['\n'] ++ "    ".toList ++ [']']

/-- Encode one `"path": [...]` entry at depth 0. -/
def encEntry (e : String × List String) : List Char :=
  "    ".toList ++ encString e.1 ++ [':', ' '] ++ encTags e.2

/-- `json.dumps(db, indent=4)`. -/
def dumps (db : Db) : String :=
  match db with
  | [] => String.mk ['{', '}']
  | _ => String.mk (['{', '\n'] ++ joinSep [',', '\n'] (db.map encEntry) ++ ['\n', '}'])

/-- JSON whitespace. -/
def wsChar (c : Char) : Bool :=
  c.toNat = 32 || c.toNat = 9 || c.toNat = 10 || c.toNat = 13

def skipWs (cs : List Char) : List Char := cs.dropWhile wsChar

/-- Value of one hex digit (Python accepts either case). -/
def hexVal? (c : Char) : Option Nat :=
  if 48 ≤ c.toNat && c.toNat ≤ 57 then some (c.toNat - 48)
  else if 97 ≤ c.toNat && c.toNat ≤ 102 then some (c.toNat - 87)
  else if 65 ≤ c.toNat && c.toNat ≤ 70 then some (c.toNat - 55)
  else none

/-- Value of a `\uXXXX` quadruple. -/
def hex4Val (a b c d : Char) : Option Nat :=
  match hexVal? a, hexVal? b, hexVal? c, hexVal? d with
  | some va, some vb, some vc, some vd => some (((va * 16 + vb) * 16 + vc) * 16 + vd)
  | _, _, _, _ => none

def consScan (c : Char) : Option (List Char × List Char) → Option (List Char × List Char)
  | some (s, r) => some (c :: s, r)
  | none => none

mutual

/-- `py_scanstring`, after the opening quote: returns the decoded
characters and the input following the closing quote. -/
def scanString : List Char → Option (List Char × List Char)
  | [] => none
  | c :: rest =>
    if c = '"' then some ([], rest)
    else if c = '\\' then scanEsc rest
    else if c.toNat < 0x20 then none
    else consScan c (scanString rest)

/-- The backslash-escape cases, positioned just after the backslash. -/
def scanEsc : List Char → Option (List Char × List Char)
  | [] => none
  | e :: rest2 =>
    if e = '"' then consScan '"' (scanString rest2)
    else if e = '\\' then consScan '\\' (scanString rest2)
    else if e = '/' then consScan '/' (scanString rest2)
    else if e = 'b' then consScan '\x08' (scanString rest2)
    else if e = 'f' then consScan '\x0c' (scanString rest2)
    else if e = 'n' then consScan '\n' (scanString rest2)
    else if e = 'r' then consScan '\r' (scanString rest2)
    else if e = 't' then consScan '\t' (scanString rest2)
    else if e = 'u' then scanUni rest2
    else none

/-- A `\uXXXX` escape, positioned just after the `u`. -/
def scanUni : List Char → Option (List Char × List Char)
  | a :: b :: c2 :: d :: rest3 =>
    (match hex4Val a b c2 d with
     | none => none
     | some n =>
       if n < 0xD800 || 0xE000 ≤ n then consScan (Char.ofNat n) (scanString rest3)
       else if n < 0xDC00 then scanUniLow n rest3
       else none)
  | _ => none

/-- The low half of a surrogate pair: a second `\uXXXX` following a high
surrogate of value `n`, recombined into one scalar. -/
def scanUniLow (n : Nat) : List Char → Option (List Char × List Char)
  | x :: y :: a2 :: b2 :: c3 :: d2 :: rest4 =>
    if x = '\\' && y = 'u' then
      match hex4Val a2 b2 c3 d2 with
      | none => none
      | some m =>
        if 0xDC00 ≤ m && m < 0xE000 then
          consScan (Char.ofNat (0x10000 + (n - 0xD800) * 0x400 + (m - 0xDC00)))
            (scanString rest4)
        else none
    else none
  | _ => none

end

/-- Items of a string array, positioned just inside `[` after any leading
element; fuel bounds the number of elements. -/
def parseTagsItems : Nat → List Char → Option (List String × List Char)
  | 0, _ => none
  | fuel + 1, cs =>
    match skipWs cs with
    | c :: rest =>
      if c = '"' then
        match scanString rest with
        | some (s, rest2) =>
          (match skipWs rest2 with
           | c2 :: rest3 =>
             if c2 = ',' then
               match parseTagsItems fuel rest3 with
               | some (ss, rest4) => some (String.mk s :: ss, rest4)
               | none => none
             else if c2 = ']' then some ([String.mk s], rest3)
             else none
           | [] => none)
        | none => none
      else none
    | [] => none

/-- A JSON array of strings (the value position of an entry).  The item
fuel is an upper bound on the number of elements; `rest.length + 1` always
suffices since every element consumes at least one character. -/
def parseTags (cs : List Char) : Option (List String × List Char) :=
  match skipWs cs with
  | c :: rest =>
    if c = '[' then
      match skipWs rest with
      | c2 :: rest2 =>
        if c2 = ']' then some ([], rest2) else parseTagsItems (rest.length + 1) rest
      | [] => none
    else none
  | [] => none

/-- Entries of the top-level object, positioned just inside `{`. -/
def parseEntries : Nat → List Char → Option (Db × List Char)
  | 0, _ => none
  | fuel + 1, cs =>
    match skipWs cs with
    | c :: rest =>
      if c = '"' then
        match scanString rest with
        | some (k, rest2) =>
          (match skipWs rest2 with
           | c2 :: rest3 =>
             if c2 = ':' then
               match parseTags rest3 with
               | some (v, rest4) =>
                 (match skipWs rest4 with
                  | c3 :: rest5 =>
                    if c3 = ',' then
                      match parseEntries fuel rest5 with
                      | some (es, rest6) => some ((String.mk k, v) :: es, rest6)
                      | none => none
                    else if c3 = '}' then some ([(String.mk k, v)], rest5)
                    else none
                  | [] => none)
               | none => none
             else none
           | [] => none)
        | none => none
      else none
    | [] => none

/-- Build a Python dict from parsed key/value pairs (later duplicate keys
overwrite in place, as `dict` does). -/
def buildDict (entries : Db) : Db :=
  entries.foldl (fun acc e => dbSet acc e.1 e.2) []

/-- `json.loads` on the persisted shape: a single object of string arrays,
with only trailing whitespace allowed after it. -/
def loads (s : String) : Option Db :=
  let cs := s.toList
  match skipWs cs with
  | c :: rest =>
    if c = '{' then
      match skipWs rest with
      | c2 :: rest2 =>
        if c2 = '}' then (if (skipWs rest2).isEmpty then some [] else none)
        else
          match parseEntries (cs.length + 1) rest with
          | some (es, rest3) => if (skipWs rest3).isEmpty then some (buildDict es) else none
          | none => none
      | [] => none
    else none
  | [] => none

/-!
## `_load_db` (lines 104–124)

`fileExists` models `os.path.exists(self.db_file)`; `readFails` models the
`open`/`read` raising one of the caught errors (`PermissionError`/
`FileNotFoundError`); `content` is the file's text.  The second component
of the result records whether the backup rename was attempted (the rename's
own `OSError` is ignored, line 121–122).  All exceptions listed on line 113
are caught, so the function itself never raises on these inputs. -/
def loadDb (fileExists : Bool) (content : String) (readFails : Bool) : Db × Bool :=
  if fileExists then
    if readFails then ([], decide (0 < content.length))
    else if pyStrip content = "" then ([], false)
    else
      match loads content with
      | some db => (db, false)
      | none => ([], decide (0 < content.length))
  else ([], false)

/-- A tag in its stored form: non-empty, trimmed and lowercase
(spec §3 invariant (b)). -/
def NormalisedTag (t : String) : Prop :=
  t ≠ "" ∧ pyStrip t = t ∧ pyLower t = t

/-- The store invariant of spec §3: every key maps to a non-empty list of
normalised tags with no duplicate tag in the list. -/
def DbInv (db : Db) : Prop :=
  ∀ e ∈ db, e.2 ≠ [] ∧ e.2.Nodup ∧ ∀ t ∈ e.2, NormalisedTag t

instance : DecidablePred NormalisedTag := fun t =>
  inferInstanceAs (Decidable (_ ∧ _))

instance (db : Db) : Decidable (DbInv db) :=
  inferInstanceAs (Decidable (∀ e ∈ db, _ ∧ _ ∧ _))

/-! ## Lemmas about the dict primitives -/

theorem dbContains_iff {db : Db} {k : String} :
    dbContains db k = true ↔ ∃ e ∈ db, e.1 = k := by
  simp [dbContains, List.any_eq_true]

theorem dbGet_eq_of_not_contains {db : Db} {k : String}
    (h : dbContains db k = false) : dbGet db k = [] := by
  have hf : db.find? (fun e => e.1 = k) = none := by
    rw [List.find?_eq_none]
    intro e he
    simp only [dbContains, List.any_eq_false] at h
    simpa using h e he
  simp [dbGet, hf]

theorem dbSet_of_contains {db : Db} {k : String} (v : List String)
    (h : dbContains db k = true) :
    dbSet db k v = db.map (fun e => if e.1 = k then (k, v) else e) := by
  simp [dbSet, h]

theorem dbSet_of_not_contains {db : Db} {k : String} (v : List String)
    (h : dbContains db k = false) : dbSet db k v = db ++ [(k, v)] := by
  simp [dbSet, h]

theorem find?_key_map (db : Db) (k k' : String) (v : List String) :
    List.find? (fun e => e.1 = k') (db.map (fun e => if e.1 = k then (k, v) else e)) =
      Option.map (fun e => if e.1 = k then (k, v) else e)
        (List.find? (fun e => e.1 = k') db) := by
  rw [List.find?_map]
  have hp : ((fun e : String × List String => decide (e.1 = k')) ∘
      fun e => if e.1 = k then (k, v) else e) =
        (fun e : String × List String => decide (e.1 = k')) := by
    funext e
    by_cases h : e.1 = k <;> simp [Function.comp, h]
  rw [hp]

theorem dbGet_dbSet_self (db : Db) (k : String) (v : List String) :
    dbGet (dbSet db k v) k = v := by
  by_cases h : dbContains db k = true
  · rw [dbSet_of_contains v h]
    have hs : (List.find? (fun e => e.1 = k) db).isSome := by
      rw [List.find?_isSome]
      obtain ⟨e, he, hek⟩ := dbContains_iff.mp h
      exact ⟨e, he, by simpa using hek⟩
    obtain ⟨e₀, he₀⟩ := Option.isSome_iff_exists.mp hs
    have hk₀ : e₀.1 = k := by simpa using List.find?_some he₀
    simp only [dbGet, find?_key_map, he₀, Option.map_some]
    simp [hk₀]
  · have h' : dbContains db k = false := by simpa using h
    rw [dbSet_of_not_contains v h']
    have hnone : List.find? (fun e => e.1 = k) db = none := by
      rw [List.find?_eq_none]
      intro e he
      simp only [dbContains, List.any_eq_false] at h'
      simpa using h' e he
    simp [dbGet, List.find?_append, hnone]

theorem dbGet_dbSet_ne (db : Db) {k k' : String} (v : List String) (hne : k' ≠ k) :
    dbGet (dbSet db k v) k' = dbGet db k' := by
  by_cases h : dbContains db k = true
  · rw [dbSet_of_contains v h]
    simp only [dbGet, find?_key_map]
    cases hf : List.find? (fun e => e.1 = k') db with
    | none => simp
    | some e₀ =>
      have hk₀ : e₀.1 = k' := by simpa using List.find?_some hf
      have : e₀.1 ≠ k := by rw [hk₀]; exact hne
      simp [this]
  · rw [dbSet_of_not_contains v (by simpa using h)]
    have hone : List.find? (fun e => e.1 = k') [(k, v)] = none := by
      have : k ≠ k' := Ne.symm hne
      simp [List.find?_cons, this]
    simp [dbGet, List.find?_append, hone]

theorem dbSet_dbSet (db : Db) (k : String) (u v : List String) :
    dbSet (dbSet db k u) k v = dbSet db k v := by
  by_cases h : dbContains db k = true
  · rw [dbSet_of_contains u h]
    have hc : dbContains (db.map (fun e => if e.1 = k then (k, u) else e)) k = true := by
      obtain ⟨e, he, hek⟩ := dbContains_iff.mp h
      exact dbContains_iff.mpr
        ⟨(k, u), List.mem_map.mpr ⟨e, he, by simp [hek]⟩, rfl⟩
    rw [dbSet_of_contains v hc, List.map_map, dbSet_of_contains v h]
    apply List.map_congr_left
    intro e _
    by_cases he : e.1 = k <;> simp [Function.comp, he]
  · have h' : dbContains db k = false := by simpa using h
    rw [dbSet_of_not_contains u h']
    have hc : dbContains (db ++ [(k, u)]) k = true := by
      simp [dbContains]
    rw [dbSet_of_contains v hc, List.map_append, dbSet_of_not_contains v h']
    congr 1
    · have hmap : List.map (fun e => if e.1 = k then (k, v) else e) db =
          List.map id db := by
        apply List.map_congr_left
        intro e he
        have hek : e.1 ≠ k := by
          intro hek
          simp only [dbContains, List.any_eq_false] at h'
          have hek' := h' e he
          simp only [decide_eq_true_eq] at hek'
          exact hek' hek
        simp [hek]
      rw [hmap, List.map_id]
    · simp

/-! ## Lemmas about the tag-adding loop -/

theorem addTagList_cons (cur : List String) (x : String) (rest : List String) :
    addTagList cur (x :: rest) =
      addTagList (if normTag x ≠ "" ∧ normTag x ∉ cur
        then cur ++ [normTag x] else cur) rest := rfl

theorem mem_addTagList (T : List String) (cur : List String) (t : String) :
    t ∈ addTagList cur T ↔ t ∈ cur ∨ ∃ x ∈ T, normTag x = t ∧ t ≠ "" := by
  induction T generalizing cur with
  | nil => simp [addTagList]
  | cons x rest ih =>
    rw [addTagList_cons, ih]
    by_cases h1 : normTag x = ""
    · rw [if_neg (by simp [h1])]
      constructor
      · rintro (hc | hrest)
        · exact Or.inl hc
        · exact Or.inr (by simpa using Or.inr hrest)
      · rintro (hc | hx)
        · exact Or.inl hc
        · rcases (by simpa using hx : (normTag x = t ∧ t ≠ "") ∨
              ∃ y ∈ rest, normTag y = t ∧ t ≠ "") with ⟨hxt, hne⟩ | hrest
          · exact absurd (hxt.symm.trans h1) hne
          · exact Or.inr hrest
    · by_cases h2 : normTag x ∈ cur
      · rw [if_neg (by simp [h2])]
        constructor
        · rintro (hc | hrest)
          · exact Or.inl hc
          · exact Or.inr (by simpa using Or.inr hrest)
        · rintro (hc | hx)
          · exact Or.inl hc
          · rcases (by simpa using hx : (normTag x = t ∧ t ≠ "") ∨
                ∃ y ∈ rest, normTag y = t ∧ t ≠ "") with ⟨hxt, _⟩ | hrest
            · exact Or.inl (hxt ▸ h2)
            · exact Or.inr hrest
      · rw [if_pos ⟨h1, h2⟩]
        constructor
        · rintro (hc | hrest)
          · rcases List.mem_append.mp hc with hc | hc
            · exact Or.inl hc
            · have ht : t = normTag x := by simpa using hc
              exact Or.inr (by simpa using Or.inl ⟨ht.symm, ht ▸ h1⟩)
          · exact Or.inr (by simpa using Or.inr hrest)
        · rintro (hc | hx)
          · exact Or.inl (List.mem_append.mpr (Or.inl hc))
          · rcases (by simpa using hx : (normTag x = t ∧ t ≠ "") ∨
                ∃ y ∈ rest, normTag y = t ∧ t ≠ "") with ⟨hxt, _⟩ | hrest
            · exact Or.inl (List.mem_append.mpr (Or.inr (by simp [hxt])))
            · exact Or.inr hrest

theorem addTagList_nodup (T : List String) {cur : List String} (h : cur.Nodup) :
    (addTagList cur T).Nodup := by
  induction T generalizing cur with
  | nil => simpa [addTagList]
  | cons x rest ih =>
    rw [addTagList_cons]
    split
    · next hcond =>
      exact ih (by simp [List.nodup_append, h, hcond.2])
    · exact ih h

theorem addTagList_eq_self {T cur : List String}
    (h : ∀ x ∈ T, normTag x ≠ "" → normTag x ∈ cur) : addTagList cur T = cur := by
  induction T with
  | nil => rfl
  | cons x rest ih =>
    rw [addTagList_cons]
    have hcond : ¬(normTag x ≠ "" ∧ normTag x ∉ cur) := by
      by_cases hx : normTag x = ""
      · simp [hx]
      · simp [hx]
        exact h x (List.mem_cons_self x rest) hx
    rw [if_neg hcond]
    exact ih fun y hy => h y (List.mem_cons_of_mem x hy)

theorem addTags_eq (db : Db) (p : String) (T : List String) :
    addTags db p T = dbSet db (normPath p) (addTagList (dbGet db (normPath p)) T) := by
  simp only [addTags]
  by_cases h : dbContains db (normPath p) = true
  · simp [h]
  · have h' : dbContains db (normPath p) = false := by simpa using h
    rw [dbGet_eq_of_not_contains h']
    simp [h']

theorem getTags_addTags_self (db : Db) (p : String) (T : List String) :
    getTags (addTags db p T) p = addTagList (getTags db p) T := by
  rw [getTags, addTags_eq, dbGet_dbSet_self, getTags]

/-- C5: after `add_tags(p, T)`, `get_tags(p)` is exactly the union (as a set)
of the pre-existing tags with the normalised (stripped, lowercased) non-empty
elements of `T`; it stays duplicate-free; and applying `add_tags(p, T)` twice
equals applying it once. -/
theorem addTags_getTags_spec (db : Db) (p : String) (T : List String)
    (hnd : (getTags db p).Nodup) :
    (∀ t, t ∈ getTags (addTags db p T) p ↔
        t ∈ getTags db p ∨ ∃ x ∈ T, normTag x = t ∧ t ≠ "") ∧
    (getTags (addTags db p T) p).Nodup ∧
    addTags (addTags db p T) p T = addTags db p T := by
  refine ⟨?_, ?_, ?_⟩
  · intro t
    rw [getTags_addTags_self]
    exact mem_addTagList T (getTags db p) t
  · rw [getTags_addTags_self]
    exact addTagList_nodup T hnd
  · rw [addTags_eq db p T, addTags_eq]
    rw [dbGet_dbSet_self]
    have hsat : ∀ x ∈ T, normTag x ≠ "" →
        normTag x ∈ addTagList (dbGet db (normPath p)) T := fun x hx hne =>
      (mem_addTagList T _ _).mpr (Or.inr ⟨x, hx, rfl, hne⟩)
    rw [addTagList_eq_self hsat, dbSet_dbSet]

/-- Witness for C5 at a concrete store. -/
theorem addTags_getTags_spec_witness :
    "y" ∈ getTags (addTags [("a", ["x"])] "a" ["  Y ", "x"]) "a" ∧
    addTags (addTags [("a", ["x"])] "a" ["  Y ", "x"]) "a" ["  Y ", "x"] =
      addTags [("a", ["x"])] "a" ["  Y ", "x"] := by
  have h := addTags_getTags_spec [("a", ["x"])] "a" ["  Y ", "x"] (by decide)
  exact ⟨(h.1 "y").mpr (Or.inr ⟨"  Y ", by decide, by decide, by decide⟩), h.2.2⟩

/-- C7 (amended): two spellings with the same *syntactic* `pathlib` normal
form hit the same stored key — tags added under `p` are visible under `q`
whenever `str(Path(p)) == str(Path(q))`.  (Relative and absolute spellings
of one file are NOT unified; see the counterexample.) -/
theorem path_normalisation_spec (db : Db) (p q : String) (T : List String)
    (hpq : normPath p = normPath q) :
    getTags (addTags db p T) q = getTags (addTags db p T) p ∧
    ∀ x ∈ T, normTag x ≠ "" → normTag x ∈ getTags (addTags db p T) q := by
  have hget : getTags (addTags db p T) q = getTags (addTags db p T) p := by
    simp only [getTags, hpq]
  refine ⟨hget, fun x hx hne => ?_⟩
  rw [hget, getTags_addTags_self]
  exact (mem_addTagList T _ _).mpr (Or.inr ⟨x, hx, rfl, hne⟩)

/-- Witness for C7 (amended): `./foo.txt` and `foo.txt` are the same key. -/
theorem path_normalisation_spec_witness :
    "t" ∈ getTags (addTags [] "./foo.txt" ["t"]) "foo.txt" := by
  have h := path_normalisation_spec [] "./foo.txt" "foo.txt" ["t"] (by decide)
  exact h.2 "t" (by decide) (by decide)

/-- Counterexample to C7 as stated: a relative and an absolute spelling of
the same file (cwd `/home/user`) are stored under different keys, so the
lookup after `add_tags` fails — `str(Path(p))` never absolutises. -/
theorem path_canonical_counterexample :
    normPath "foo.txt" ≠ normPath "/home/user/foo.txt" ∧
    getTags (addTags [] "foo.txt" ["t"]) "/home/user/foo.txt" = [] := by decide

/-- C10: when `tag` is not *exactly* (case- and whitespace-sensitively) in
`p`'s stored list — `remove_tag` does not normalise its argument — the store
is returned unchanged and `queue_save` is not invoked (so `_pending_changes`
is not set and nothing is enqueued). -/
theorem removeTag_frame (db : Db) (p t : String)
    (h : t ∉ dbGet db (normPath p)) :
    removeTag db p t = (db, false) := by
  have hc : ((dbGet db (normPath p)).contains t) = false := by
    simpa using h
  simp [removeTag, hc]
  exact fun _ => h

/-- Witness for C10: removing `"X"` when `"x"` is stored is a no-op. -/
theorem removeTag_frame_witness :
    removeTag [("a", ["x"])] "a" "X" = ([("a", ["x"])], false) :=
  removeTag_frame [("a", ["x"])] "a" "X" (by decide)

/-! ## Search -/

theorem dbGet_eq_of_mem {db : Db} {k : String} (hnd : (db.map Prod.fst).Nodup)
    {e : String × List String} (he : e ∈ db) (hk : e.1 = k) : dbGet db k = e.2 := by
  induction db with
  | nil => cases he
  | cons a rest ih =>
    rcases List.mem_cons.mp he with rfl | he'
    · simp [dbGet, List.find?_cons, hk]
    · have hak : a.1 ≠ k := by
        intro hak
        have : e.1 ∈ rest.map Prod.fst := List.mem_map.mpr ⟨e, he', rfl⟩
        rw [hk, ← hak] at this
        exact (List.nodup_cons.mp (by simpa using hnd)).1 this
      have : dbGet (a :: rest) k = dbGet rest k := by
        simp [dbGet, List.find?_cons, hak]
      rw [this]
      exact ih (List.nodup_cons.mp (by simpa using hnd)).2 he'

/-- C9: `search_by_tags(Q)` returns exactly the stored paths whose tag list
contains every normalised element of `Q` (superset semantics, exact string
match per tag), without duplicates; the empty query returns every stored
path, and a query nobody satisfies returns the empty list. -/
theorem searchByTags_spec (db : Db) (Q : List String)
    (hnd : (db.map Prod.fst).Nodup) :
    (∀ p, p ∈ searchByTags db Q ↔
        dbContains db p = true ∧ ∀ q ∈ Q, normTag q ∈ dbGet db p) ∧
    (searchByTags db Q).Nodup ∧
    searchByTags db [] = db.map Prod.fst ∧
    ((∀ e ∈ db, ∃ q ∈ Q, normTag q ∉ e.2) → searchByTags db Q = []) := by
  refine ⟨?_, ?_, ?_, ?_⟩
  · intro p
    constructor
    · intro hp
      obtain ⟨e, hef, hep⟩ := List.mem_map.mp hp
      obtain ⟨he, hpred⟩ := List.mem_filter.mp hef
      refine ⟨dbContains_iff.mpr ⟨e, he, hep⟩, fun q hq => ?_⟩
      rw [dbGet_eq_of_mem hnd he hep]
      have := List.all_eq_true.mp hpred (normTag q) (List.mem_map.mpr ⟨q, hq, rfl⟩)
      simpa using this
    · rintro ⟨hc, hq⟩
      obtain ⟨e, he, hep⟩ := dbContains_iff.mp hc
      refine List.mem_map.mpr ⟨e, List.mem_filter.mpr ⟨he, ?_⟩, hep⟩
      rw [List.all_eq_true]
      intro t ht
      obtain ⟨q, hqQ, hqt⟩ := List.mem_map.mp ht
      have := hq q hqQ
      rw [dbGet_eq_of_mem hnd he hep] at this
      simpa [← hqt] using this
  · exact ((List.filter_sublist db).map Prod.fst).nodup hnd
  · simp [searchByTags]
  · intro hnone
    have hfil : db.filter
        (fun e => (Q.map normTag).all (fun t => e.2.contains t)) = [] := by
      rw [List.filter_eq_nil_iff]
      intro e he
      obtain ⟨q, hqQ, hqe⟩ := hnone e he
      intro hall
      rw [List.all_eq_true] at hall
      exact hqe (by simpa using hall (normTag q) (List.mem_map.mpr ⟨q, hqQ, rfl⟩))
    simp only [searchByTags]
    rw [hfil]
    rfl

/-- Witness for C9 on the spec's example store. -/
theorem searchByTags_spec_witness :
    "a" ∈ searchByTags [("a", ["x", "y"]), ("b", ["x"]), ("c", ["y", "z"])] ["x"] ∧
    searchByTags [("a", ["x", "y"]), ("b", ["x"]), ("c", ["y", "z"])] [] =
      ["a", "b", "c"] := by
  have h := searchByTags_spec [("a", ["x", "y"]), ("b", ["x"]), ("c", ["y", "z"])]
    ["x"] (by decide)
  exact ⟨(h.1 "a").mpr (by decide), by rw [h.2.2.1]; rfl⟩

example : dumps [] = "{}" := by decide
example : loads "{}" = some [] := by decide
example : loads (dumps [("a", ["x", "y"]), ("b", [])]) = some [("a", ["x", "y"]), ("b", [])] := by
  decide
example : loads "garbage" = none := by decide
example : loadDb true "" false = ([], false) := by decide
example : loadDb true "not json at all" false = ([], true) := by decide
example : loadDb false "x" false = ([], false) := by decide

example : normPath "./foo.txt" = "foo.txt" := by decide
example : normPath "/home//u/./f" = "/home/u/f" := by decide
example : normPath "" = "." := by decide
example : normPath "/" = "/" := by decide
example : addTags [] "a" ["  X ", "x", "", "y"] = [("a", ["x", "y"])] := by decide
example : removeTag [("a", ["x"])] "a" "X" = ([("a", ["x"])], false) := by decide
example : searchByTags [("a", ["x", "y"]), ("b", ["x"]), ("c", ["y", "z"])] ["x"]
    = ["a", "b"] := by decide

/-! ## Character-level lemmas for the normalisation invariant -/

theorem toNat_ofNat_valid (n : Nat) (h : n.isValidChar) :
    (Char.ofNat n).toNat = n := by
  rcases h with h | ⟨h1, h2⟩ <;>
    simp [Char.ofNat, Nat.isValidChar, Char.toNat, Char.ofNatAux, UInt32.toNat,
      BitVec.toNat_ofNatLt, *]

theorem pyLowerChar_toNat_of_upper {c : Char}
    (h : (65 ≤ c.toNat && c.toNat ≤ 90) = true) :
    (pyLowerChar c).toNat = c.toNat + 32 := by
  simp only [Bool.and_eq_true, decide_eq_true_eq] at h
  have hv : (c.toNat + 32).isValidChar := Or.inl (by omega)
  simp [pyLowerChar, h.1, h.2, toNat_ofNat_valid _ hv]

theorem pyLowerChar_eq_of_not_upper {c : Char}
    (h : (65 ≤ c.toNat && c.toNat ≤ 90) = false) : pyLowerChar c = c := by
  simp [pyLowerChar, h]

theorem pySpace_pyLowerChar (c : Char) : pySpace (pyLowerChar c) = pySpace c := by
  cases h : (65 ≤ c.toNat && c.toNat ≤ 90)
  · rw [pyLowerChar_eq_of_not_upper h]
  · have h1 := pyLowerChar_toNat_of_upper h
    simp only [Bool.and_eq_true, decide_eq_true_eq] at h
    have hl : pySpace (pyLowerChar c) = false := by
      simp only [pySpace, h1, Bool.or_eq_false_iff, decide_eq_false_iff_not]
      omega
    have hr : pySpace c = false := by
      simp only [pySpace, Bool.or_eq_false_iff, decide_eq_false_iff_not]
      omega
    rw [hl, hr]

theorem pyLowerChar_idem (c : Char) : pyLowerChar (pyLowerChar c) = pyLowerChar c := by
  cases h : (65 ≤ c.toNat && c.toNat ≤ 90)
  · simp [pyLowerChar_eq_of_not_upper h]
  · have h1 := pyLowerChar_toNat_of_upper h
    simp only [Bool.and_eq_true, decide_eq_true_eq] at h
    apply pyLowerChar_eq_of_not_upper
    simp only [h1, Bool.and_eq_false_iff, decide_eq_false_iff_not]
    omega

theorem dropWhile_head_false {α : Type} {p : α → Bool} {l : List α} {a : α} {t : List α}
    (h : List.dropWhile p l = a :: t) : p a = false := by
  induction l with
  | nil => simp [List.dropWhile] at h
  | cons c rest ih =>
    rw [List.dropWhile_cons] at h
    by_cases hc : p c = true
    · rw [if_pos hc] at h
      exact ih h
    · rw [if_neg hc] at h
      cases h
      simpa using hc

theorem dropWhile_idem {α : Type} (p : α → Bool) (l : List α) :
    List.dropWhile p (List.dropWhile p l) = List.dropWhile p l := by
  cases h : List.dropWhile p l with
  | nil => rfl
  | cons a t =>
    rw [List.dropWhile_cons, dropWhile_head_false h]
    simp

theorem stripList_eq_self {m : List Char}
    (h1 : List.dropWhile pySpace m = m)
    (h2 : List.dropWhile pySpace m.reverse = m.reverse) : stripList m = m := by
  simp [stripList, h1, h2]

theorem dropWhile_stripList (l : List Char) :
    List.dropWhile pySpace (stripList l) = stripList l := by
  cases hA : l.dropWhile pySpace with
  | nil => simp [stripList, hA]
  | cons a t =>
    have ha : pySpace a = false := dropWhile_head_false hA
    have hex : ∃ C, List.dropWhile pySpace ((a :: t).reverse) = C ++ [a] := by
      rw [show (a :: t).reverse = t.reverse ++ [a] by simp, List.dropWhile_append]
      by_cases he : (List.dropWhile pySpace t.reverse).isEmpty
      · exact ⟨[], by simp [he, List.dropWhile_cons, ha]⟩
      · exact ⟨List.dropWhile pySpace t.reverse, by simp [he]⟩
    obtain ⟨C, hC⟩ := hex
    simp only [stripList, hA, hC]
    simp [List.dropWhile_cons, ha]

theorem stripList_idem (l : List Char) : stripList (stripList l) = stripList l := by
  apply stripList_eq_self (dropWhile_stripList l)
  simp only [stripList, List.reverse_reverse]
  exact dropWhile_idem _ _

theorem stripList_map_lower (l : List Char) :
    stripList (l.map pyLowerChar) = (stripList l).map pyLowerChar := by
  have hps : (pySpace ∘ pyLowerChar) = pySpace := funext pySpace_pyLowerChar
  simp [stripList, List.dropWhile_map, hps, ← List.map_reverse]

theorem normTag_normalised (x : String) (h : normTag x ≠ "") :
    NormalisedTag (normTag x) := by
  refine ⟨h, ?_, ?_⟩
  · show pyStrip (pyLower (pyStrip x)) = pyLower (pyStrip x)
    show String.mk (stripList ((stripList x.toList).map pyLowerChar)) = _
    rw [stripList_map_lower, stripList_idem]
    rfl
  · show pyLower (pyLower (pyStrip x)) = pyLower (pyStrip x)
    show String.mk (((stripList x.toList).map pyLowerChar).map pyLowerChar) = _
    rw [List.map_map]
    have : (pyLowerChar ∘ pyLowerChar) = pyLowerChar := funext pyLowerChar_idem
    rw [this]
    rfl

/-! ## Store-invariant preservation (C6) -/

theorem dbGet_cases (db : Db) (k : String) :
    dbGet db k = [] ∨ ∃ e ∈ db, e.1 = k ∧ dbGet db k = e.2 := by
  cases hf : List.find? (fun e => e.1 = k) db with
  | none => exact Or.inl (by simp [dbGet, hf])
  | some e₀ =>
    exact Or.inr ⟨e₀, List.mem_of_find?_eq_some hf,
      by simpa using List.find?_some hf, by simp [dbGet, hf]⟩

theorem dbGet_inv {db : Db} (hdb : DbInv db) (k : String) :
    (dbGet db k).Nodup ∧ ∀ t ∈ dbGet db k, NormalisedTag t := by
  rcases dbGet_cases db k with h | ⟨e, he, _, hk⟩
  · simp [h]
  · rw [hk]
    exact ⟨(hdb e he).2.1, (hdb e he).2.2⟩

theorem DbInv_dbSet {db : Db} {k : String} {v : List String} (hdb : DbInv db)
    (hv : v ≠ [] ∧ v.Nodup ∧ ∀ t ∈ v, NormalisedTag t) : DbInv (dbSet db k v) := by
  intro e he
  simp only [dbSet] at he
  split at he
  · obtain ⟨e₀, he₀, heq⟩ := List.mem_map.mp he
    by_cases h₀ : e₀.1 = k
    · rw [if_pos h₀] at heq
      rw [← heq]
      exact hv
    · rw [if_neg h₀] at heq
      rw [← heq]
      exact hdb e₀ he₀
  · rcases List.mem_append.mp he with h | h
    · exact hdb e h
    · rw [show e = (k, v) by simpa using h]
      exact hv

theorem DbInv_dbDel {db : Db} (hdb : DbInv db) (k : String) : DbInv (dbDel db k) :=
  fun e he => hdb e (List.mem_of_mem_filter he)

theorem addTagList_ne_nil {cur T : List String}
    (h : cur ≠ [] ∨ ∃ x ∈ T, normTag x ≠ "") : addTagList cur T ≠ [] := by
  rcases h with h | ⟨x, hx, hne⟩
  · obtain ⟨c, hc⟩ := List.exists_mem_of_ne_nil cur h
    exact List.ne_nil_of_mem ((mem_addTagList T cur c).mpr (Or.inl hc))
  · exact List.ne_nil_of_mem
      ((mem_addTagList T cur (normTag x)).mpr (Or.inr ⟨x, hx, rfl, hne⟩))

theorem addTagList_full_inv {cur T : List String} (hnodup : cur.Nodup)
    (hnorm : ∀ t ∈ cur, NormalisedTag t) :
    (addTagList cur T).Nodup ∧ ∀ t ∈ addTagList cur T, NormalisedTag t := by
  refine ⟨addTagList_nodup T hnodup, fun t ht => ?_⟩
  rcases (mem_addTagList T cur t).mp ht with hc | ⟨x, hx, hxt, hne⟩
  · exact hnorm t hc
  · rw [← hxt]
    exact normTag_normalised x (by rwa [hxt])

theorem addTagsFileRaw_eq (db : Db) (fp : String) (T : List String) :
    addTagsFileRaw db fp T = dbSet db fp (addTagList (dbGet db fp) T) := by
  simp only [addTagsFileRaw]
  by_cases h : dbContains db fp = true
  · simp [h]
  · have h' : dbContains db fp = false := by simpa using h
    rw [dbGet_eq_of_not_contains h']
    simp [h']

theorem DbInv_addTagsFileRaw {db : Db} {fp : String} {T : List String}
    (hdb : DbInv db) (hT : ∃ x ∈ T, normTag x ≠ "") :
    DbInv (addTagsFileRaw db fp T) := by
  rw [addTagsFileRaw_eq]
  have hcur := dbGet_inv hdb fp
  exact DbInv_dbSet hdb
    ⟨addTagList_ne_nil (Or.inr hT), (addTagList_full_inv hcur.1 hcur.2).1,
      (addTagList_full_inv hcur.1 hcur.2).2⟩

theorem DbInv_addTags {db : Db} {p : String} {T : List String}
    (hdb : DbInv db) (hT : ∃ x ∈ T, normTag x ≠ "") : DbInv (addTags db p T) := by
  have h : addTags db p T = addTagsFileRaw db (normPath p) T := rfl
  rw [h]
  exact DbInv_addTagsFileRaw hdb hT

theorem listRemoveFirst_eq_erase (l : List String) (x : String) :
    listRemoveFirst l x = l.erase x := by
  induction l with
  | nil => rfl
  | cons a rest ih =>
    rw [List.erase_cons]
    by_cases h : a = x
    · simp [listRemoveFirst, h]
    · simp only [listRemoveFirst, if_neg h, ih]
      rw [if_neg (by simpa using h)]

theorem DbInv_removeTag {db : Db} {p t : String} (hdb : DbInv db) :
    DbInv (removeTag db p t).1 := by
  simp only [removeTag]
  split
  · split
    · next hre =>
      simp only []
      exact DbInv_dbDel hdb (normPath p)
    · next hre =>
      simp only []
      have hcur := dbGet_inv hdb (normPath p)
      apply DbInv_dbSet hdb
      rw [listRemoveFirst_eq_erase] at hre ⊢
      refine ⟨by simpa [List.isEmpty_iff] using hre, ?_, ?_⟩
      · exact ((hcur.1).erase t)
      · intro s hs
        exact hcur.2 s (List.erase_subset _ _ hs)
  · exact hdb

theorem DbInv_applyBatch {db : Db} {batch T : List String}
    (hdb : DbInv db) (hT : ∃ x ∈ T, normTag x ≠ "") :
    DbInv (applyBatch db batch T) := by
  induction batch generalizing db with
  | nil => exact hdb
  | cons f rest ih =>
    exact ih (DbInv_addTagsFileRaw hdb hT)

theorem DbInv_dirGo {T : List String} (files : List String) (total : Nat)
    (idx : List Nat) (db : Db) (saves : Nat) (progress : List (Nat × Nat))
    (hdb : DbInv db) (hT : ∃ x ∈ T, normTag x ≠ "") :
    DbInv (dirGo T files total db idx saves progress).db := by
  induction idx generalizing db saves progress with
  | nil => exact hdb
  | cons i rest ih =>
    exact ih _ _ _ (DbInv_applyBatch hdb hT)

/-- C6 (amended): the three mutation operations preserve the store
invariant (non-empty tag lists, tags normalised, no duplicate tag per
path, emptied entries deleted) — for the two *adding* operations under the
proviso that the call supplies at least one tag that is non-empty after
trimming; without it `add_tags` can insert a key mapped to `[]` (see the
counterexample).  `remove_tag` preserves the invariant unconditionally. -/
theorem mutation_invariant_spec (db : Db) (p root t : String) (tree : FsTree)
    (T : List String) (hdb : DbInv db) (hT : ∃ x ∈ T, normTag x ≠ "") :
    DbInv (addTags db p T) ∧
    DbInv (removeTag db p t).1 ∧
    DbInv (addTagsToDirectory db root tree T).db := by
  refine ⟨DbInv_addTags hdb hT, DbInv_removeTag hdb, ?_⟩
  simp only [addTagsToDirectory]
  exact DbInv_dirGo _ _ _ _ _ _ hdb hT

/-- Witness for C6 (amended) at a concrete store and directory tree. -/
theorem mutation_invariant_spec_witness :
    DbInv (addTags [("a", ["x"])] "a" [" T "]) ∧
    DbInv (removeTag [("a", ["x"])] "a" "x").1 ∧
    DbInv (addTagsToDirectory [("a", ["x"])] "d"
      (FsTree.node ["f"] [("s", FsTree.node ["g"] [])]) [" T "]).db := by
  have h := mutation_invariant_spec [("a", ["x"])] "a" "d" "x"
    (FsTree.node ["f"] [("s", FsTree.node ["g"] [])]) [" T "]
    (by decide) ⟨" T ", by decide, by decide⟩
  exact ⟨h.1, h.2.1, h.2.2⟩

/-- Counterexample to C6 as stated: `add_tags` with an empty tag list (or
one whose tags are all whitespace) creates an entry mapped to the empty
list, violating the invariant that every key maps to a non-empty list. -/
theorem mutation_invariant_counterexample :
    addTags [] "a" [] = [("a", [])] ∧ ¬ DbInv (addTags [] "a" []) := by
  constructor
  · decide
  · intro h
    exact absurd rfl (h ("a", []) (by decide)).1

/-! ## Batch applier (C8) -/

theorem dirGo_spec (T files : List String) (total : Nat) (idx : List Nat)
    (db : Db) (saves : Nat) (progress : List (Nat × Nat)) :
    (dirGo T files total db idx saves progress).count = total ∧
    (dirGo T files total db idx saves progress).saves = saves + idx.length ∧
    (dirGo T files total db idx saves progress).progress =
      progress ++ idx.map (fun i => (min (i + 100) total, total)) := by
  induction idx generalizing db saves progress with
  | nil => simp [dirGo]
  | cons i rest ih =>
    simp only [dirGo]
    obtain ⟨h1, h2, h3⟩ := ih (applyBatch db ((files.drop i).take 100) T) (saves + 1)
      (progress ++ [(min (i + 100) total, total)])
    refine ⟨h1, ?_, ?_⟩
    · rw [h2]
      simp
      omega
    · rw [h3]
      simp

theorem batchStarts_progress (n : Nat) :
    (batchStarts n).map (fun i => (min (i + 100) n, n)) = expectedProgress n := by
  simp only [batchStarts, expectedProgress, List.map_map]
  apply List.map_congr_left
  intro k _
  simp only [Function.comp]
  congr 1
  omega

theorem expectedProgress_getLast (n : Nat) (h : 0 < n) :
    (expectedProgress n).getLast? = some (n, n) := by
  have hm : numBatches n = (numBatches n - 1) + 1 := by
    unfold numBatches
    omega
  rw [expectedProgress, hm, List.range_succ, List.map_append]
  simp only [List.map_cons, List.map_nil]
  rw [List.getLast?_concat]
  have hle : n ≤ ((numBatches n - 1) + 1) * 100 := by
    rw [← hm]
    unfold numBatches
    omega
  simp [Nat.min_eq_right hle]

theorem expectedProgress_pairwise (n : Nat) :
    (expectedProgress n).Pairwise (fun a b => a.1 ≤ b.1) := by
  unfold expectedProgress
  rw [List.pairwise_map]
  apply (List.pairwise_lt_range _).imp
  intro a b hab
  simp only
  exact min_le_min (by omega) (Nat.le_refl n)

/-- C8 (amended): `add_tags_to_directory` always enumerates the directory
recursively (`os.walk`; it has no recursive/top-level flag — the UI's
non-recursive mode bypasses it and calls `add_tags` per file), processes the
files in fixed batches of 100, signals `queue_save` once per batch, reports
cumulative progress `min(i+100, total)` per batch (monotone, final value
equal to the total), and returns the number of files discovered. -/
theorem batch_apply_spec (db : Db) (root : String) (tree : FsTree) (T : List String) :
    (addTagsToDirectory db root tree T).count = (walkFiles root tree).length ∧
    (addTagsToDirectory db root tree T).saves =
      numBatches (walkFiles root tree).length ∧
    (addTagsToDirectory db root tree T).progress =
      expectedProgress (walkFiles root tree).length ∧
    (addTagsToDirectory db root tree T).progress.Pairwise (fun a b => a.1 ≤ b.1) ∧
    (0 < (walkFiles root tree).length →
      (addTagsToDirectory db root tree T).progress.getLast? =
        some ((walkFiles root tree).length, (walkFiles root tree).length)) := by
  have hd := dirGo_spec T (walkFiles root tree) (walkFiles root tree).length
    (batchStarts (walkFiles root tree).length) db 0 []
  simp only [addTagsToDirectory]
  have hp : (dirGo T (walkFiles root tree) (walkFiles root tree).length db
      (batchStarts (walkFiles root tree).length) 0 []).progress =
        expectedProgress (walkFiles root tree).length := by
    rw [hd.2.2, List.nil_append, batchStarts_progress]
  refine ⟨hd.1, ?_, hp, ?_, ?_⟩
  · rw [hd.2.1]
    simp [batchStarts]
  · rw [hp]
    exact expectedProgress_pairwise _
  · intro h
    rw [hp]
    exact expectedProgress_getLast _ h

/-- Witness for C8 (amended) on a two-file tree (one file nested). -/
theorem batch_apply_spec_witness :
    (addTagsToDirectory [] "d" (FsTree.node ["a"] [("s", FsTree.node ["b"] [])])
      ["t"]).count = 2 ∧
    (addTagsToDirectory [] "d" (FsTree.node ["a"] [("s", FsTree.node ["b"] [])])
      ["t"]).progress.getLast? = some (2, 2) := by
  have h := batch_apply_spec [] "d" (FsTree.node ["a"] [("s", FsTree.node ["b"] [])]) ["t"]
  have hn : (walkFiles "d" (FsTree.node ["a"] [("s", FsTree.node ["b"] [])])).length = 2 := by
    decide
  exact ⟨by rw [h.1, hn], by rw [h.2.2.2.2 (by decide), hn]⟩

/-- Counterexample to C8 as stated: `add_tags_to_directory` has no
recursive flag and never enumerates top-level-only — on a tree with one
top-level and one nested file it discovers both (count 2) and tags the
nested file, where a top-level-only enumeration would have returned one. -/
theorem batch_apply_counterexample :
    walkFiles "d" (FsTree.node ["a"] [("s", FsTree.node ["b"] [])]) ≠
      topLevelFiles "d" (FsTree.node ["a"] [("s", FsTree.node ["b"] [])]) ∧
    (addTagsToDirectory [] "d" (FsTree.node ["a"] [("s", FsTree.node ["b"] [])])
      ["t"]).count = 2 ∧
    dbGet (addTagsToDirectory [] "d" (FsTree.node ["a"] [("s", FsTree.node ["b"] [])])
      ["t"]).db "d/s/b" = ["t"] := by decide

/-! ## Coalescing (C1) -/

theorem applyMutations_spec (ms : List (Db → Db)) (s : SysState) :
    (applyMutations s ms).store = ms.foldl (fun d f => f d) s.store ∧
    (applyMutations s ms).queue = s.queue + ms.length ∧
    (applyMutations s ms).writes = s.writes ∧
    (applyMutations s ms).lastSave = s.lastSave ∧
    (applyMutations s ms).time = s.time ∧
    (applyMutations s ms).pending = (s.pending || !ms.isEmpty) := by
  induction ms generalizing s with
  | nil => simp [applyMutations]
  | cons f rest ih =>
    obtain ⟨h1, h2, h3, h4, h5, h6⟩ := ih (mutate s f)
    have hs : applyMutations s (f :: rest) = applyMutations (mutate s f) rest := by
      simp [applyMutations]
    rw [hs]
    refine ⟨by rw [h1]; rfl, by rw [h2]; simp [mutate, queueSave]; omega,
      by rw [h3]; rfl, by rw [h4]; rfl, by rw [h5]; rfl, by rw [h6]; simp [mutate, queueSave]⟩

theorem drainAux_no_pending (n : Nat) (s : SysState) (h : s.pending = false) :
    (drainAux n s).writes = s.writes ∧ (drainAux n s).pending = false := by
  induction n generalizing s with
  | zero => exact ⟨rfl, h⟩
  | succ n ih =>
    simp only [drainAux]
    by_cases hq : s.queue = 0
    · rw [show workerStep s = s by simp [workerStep, hq]]
      exact ih s h
    · have h1 : (workerStep s).pending = false := by simp [workerStep, hq, h]
      have h2 : (workerStep s).writes = s.writes := by simp [workerStep, hq, h]
      obtain ⟨hw, hp⟩ := ih (workerStep s) h1
      exact ⟨by rw [hw, h2], hp⟩

/-- C1: when N ≥ 1 mutations (each ending in `queue_save`) land within one
rate-limit window — so every mutation precedes the worker's
rate-limit-delayed critical section — draining the queue performs exactly
one disk write, whose snapshot is the combined effect of all N mutations,
and leaves the dirty flag clear. -/
theorem coalescing_spec (s0 : Db) (t0 : Nat) (ms : List (Db → Db)) (hms : ms ≠ []) :
    (drain (applyMutations (initState s0 t0) ms)).writes =
      [ms.foldl (fun d f => f d) s0] ∧
    (drain (applyMutations (initState s0 t0) ms)).pending = false := by
  obtain ⟨hstore, hqueue, hwrites, hlast, htime, hpending⟩ :=
    applyMutations_spec ms (initState s0 t0)
  set s := applyMutations (initState s0 t0) ms with hsdef
  have hpend : s.pending = true := by
    rw [hpending]
    simp [initState, hms]
  have hq : s.queue = ms.length := by
    rw [hqueue]
    simp [initState]
  cases hm : ms.length with
  | zero => exact absurd (List.length_eq_zero.mp hm) hms
  | succ m =>
    rw [drain, hq, hm]
    simp only [drainAux]
    have hq0 : ¬ s.queue = 0 := by
      rw [hq, hm]
      omega
    obtain ⟨hw, hp⟩ := drainAux_no_pending m (workerStep s)
      (by simp [workerStep, hq0, hpend])
    refine ⟨?_, hp⟩
    rw [hw]
    have hws : (workerStep s).writes = s.writes ++ [s.store] := by
      simp [workerStep, hq0, hpend]
    rw [hws, hwrites, hstore]
    simp [initState]

/-- Witness for C1: two `add_tags` mutations in one window produce exactly
one write holding both effects. -/
theorem coalescing_spec_witness :
    (drain (applyMutations (initState [] 0)
      [fun d => addTags d "a" ["x"], fun d => addTags d "b" ["y"]])).writes =
      [[("a", ["x"]), ("b", ["y"])]] := by
  have h := coalescing_spec [] 0
    [fun d => addTags d "a" ["x"], fun d => addTags d "b" ["y"]] (by simp)
  rw [h.1]
  decide

/-! ## Retry / backoff (C3) -/

/-- C3 (amended): `_save_db_with_retry` makes exactly 3 attempts.  When every
attempt raises, it sleeps 1 then 2 time units between attempts and re-raises
after the third attempt **without** a third sleep — worst-case total sleep 3
(not 1+2+4 = 7) — propagating the error with nothing written.  When the
first two attempts raise and the third succeeds, the file is replaced after
sleeps of 1 and 2 with no error.  However, on win32 with an existing target
whose removal keeps raising `PermissionError`, the loop `continue`s without
doubling the delay (sleeps 1, 1, 1) and then *returns normally* with nothing
written and no error raised. -/
theorem saveRetry_spec (c : String) :
    (∀ oc : Nat → SaveOutcome, (∀ i, i < 3 → oc i = .exc) →
      saveDbWithRetry c oc = ⟨[1, 2], 3, true, none⟩) ∧
    (∀ oc : Nat → SaveOutcome, (∀ i, i < 3 → oc i = .winPerm) →
      saveDbWithRetry c oc = ⟨[1, 1, 1], 3, false, none⟩) ∧
    (∀ oc : Nat → SaveOutcome, oc 0 = .exc → oc 1 = .exc → oc 2 = .ok →
      saveDbWithRetry c oc = ⟨[1, 2], 3, false, some c⟩) := by
  refine ⟨?_, ?_, ?_⟩
  · intro oc h
    have h0 := h 0 (by omega)
    have h1 := h 1 (by omega)
    have h2 := h 2 (by omega)
    simp [saveDbWithRetry, saveRetryGo, h0, h1, h2]
  · intro oc h
    have h0 := h 0 (by omega)
    have h1 := h 1 (by omega)
    have h2 := h 2 (by omega)
    simp [saveDbWithRetry, saveRetryGo, h0, h1, h2]
  · intro oc h0 h1 h2
    simp [saveDbWithRetry, saveRetryGo, h0, h1, h2]

/-- Witness for C3 (amended) at concrete outcome oracles. -/
theorem saveRetry_spec_witness :
    saveDbWithRetry "s" (fun _ => .exc) = ⟨[1, 2], 3, true, none⟩ ∧
    saveDbWithRetry "s" (fun _ => .winPerm) = ⟨[1, 1, 1], 3, false, none⟩ := by
  have h := saveRetry_spec "s"
  exact ⟨h.1 _ (fun i _ => rfl), h.2.1 _ (fun i _ => rfl)⟩

/-- Counterexample to C3 as stated: with every attempt failing, the sleeps
are 1 and 2 — not 1, 2, 4 — for a worst-case total of 3 time units, not 7;
and in the win32 remove-`PermissionError` mode the function returns
normally (no error raised) without having replaced the target file. -/
theorem saveRetry_counterexample :
    (saveDbWithRetry "s" (fun _ => .exc)).sleeps = [1, 2] ∧
    (saveDbWithRetry "s" (fun _ => .exc)).sleeps ≠ [1, 2, 4] ∧
    (saveDbWithRetry "s" (fun _ => .exc)).sleeps.sum = 3 ∧
    (saveDbWithRetry "s" (fun _ => .winPerm)).raised = false ∧
    (saveDbWithRetry "s" (fun _ => .winPerm)).written = none := by
  refine ⟨by decide, by decide, by decide, by decide, by decide⟩

/-! ## Load failure handling (C4) -/

theorem length_pos_of_pyStrip_ne (content : String) (h : pyStrip content ≠ "") :
    0 < content.length := by
  by_contra hle
  have hz : content.length = 0 := by omega
  have : content = "" := by
    cases content
    simp [String.length] at hz
    simp [hz]
  rw [this] at h
  exact h rfl

/-- C4 (amended): `_load_db` never lets the caught exceptions escape and
falls back to the empty store, but the `.backup` rename is attempted *only*
when an existing **non-empty** file is unreadable or unparsable; a missing
file and an empty (or whitespace-only) file yield the empty store with no
rename at all. -/
theorem loadDb_fails_soft (content : String) :
    (∀ r, loadDb false content r = ([], false)) ∧
    (pyStrip content = "" → loadDb true content false = ([], false)) ∧
    (pyStrip content ≠ "" → loads content = none → loadDb true content false = ([], true)) ∧
    (0 < content.length → loadDb true content true = ([], true)) := by
  refine ⟨fun r => by simp [loadDb], fun h => by simp [loadDb, h], ?_, ?_⟩
  · intro h1 h2
    have h3 := length_pos_of_pyStrip_ne content h1
    simp [loadDb, h1, h2, h3]
  · intro h
    simp [loadDb, h]

/-- Witness for C4 (amended): unparsable content is dropped with a backup
rename attempt; a missing file gives the empty store silently. -/
theorem loadDb_fails_soft_witness :
    loadDb true "garbage" false = ([], true) ∧
    loadDb false "garbage" false = ([], false) := by
  have h := loadDb_fails_soft "garbage"
  exact ⟨h.2.2.1 (by decide) (by decide), h.1 false⟩

/-- Counterexample to C4 as stated: a present but empty database file is
*not* renamed to `.backup` — the empty-content check (line 110–111) returns
the empty store before the exception handler that performs the rename, so
the "renames the unreadable file" part fails for the empty case. -/
theorem loadDb_empty_counterexample :
    loadDb true "" false = ([], false) := by decide

/-! ## JSON round-trip (C2): characters -/

theorem char_toNat_valid (c : Char) :
    c.toNat < 0xD800 ∨ (0xE000 ≤ c.toNat ∧ c.toNat < 0x110000) := by
  rcases c.valid with h | ⟨h1, h2⟩
  · exact Or.inl h
  · exact Or.inr ⟨h1, h2⟩

theorem hexVal?_hexDigitChar (d : Nat) (h : d < 16) :
    hexVal? (hexDigitChar d) = some d := by
  interval_cases d <;> decide


theorem hex4Val_hex4 (n : Nat) (h : n < 65536) :
    hex4Val (hexDigitChar (n / 4096 % 16)) (hexDigitChar (n / 256 % 16))
      (hexDigitChar (n / 16 % 16)) (hexDigitChar (n % 16)) = some n := by
  simp only [hex4Val, hexVal?_hexDigitChar _ (show n / 4096 % 16 < 16 by omega),
    hexVal?_hexDigitChar _ (show n / 256 % 16 < 16 by omega),
    hexVal?_hexDigitChar _ (show n / 16 % 16 < 16 by omega),
    hexVal?_hexDigitChar _ (show n % 16 < 16 by omega), Option.some.injEq]
  omega

theorem scanUniLow_enc (n m : Nat) (suffix : List Char) (hm : m < 65536)
    (h1 : 0xDC00 ≤ m) (h2 : m < 0xE000) :
    scanUniLow n ('\\' :: 'u' :: (hex4 m ++ suffix)) =
      consScan (Char.ofNat (0x10000 + (n - 0xD800) * 0x400 + (m - 0xDC00)))
        (scanString suffix) := by
  simp only [hex4, List.cons_append, List.nil_append]
  simp [scanUniLow]
  rw [hex4Val_hex4 _ hm]
  simp [h1, h2]

theorem scanUni_enc_pair (n m : Nat) (suffix : List Char)
    (hn1 : 0xD800 ≤ n) (hn2 : n < 0xDC00) (hm1 : 0xDC00 ≤ m) (hm2 : m < 0xE000) :
    scanUni (hex4 n ++ '\\' :: 'u' :: (hex4 m ++ suffix)) =
      consScan (Char.ofNat (0x10000 + (n - 0xD800) * 0x400 + (m - 0xDC00)))
        (scanString suffix) := by
  have hnot : ¬(n < 0xD800 ∨ 0xE000 ≤ n) := by omega
  rw [show hex4 n ++ '\\' :: 'u' :: (hex4 m ++ suffix) =
    hexDigitChar (n / 4096 % 16) :: hexDigitChar (n / 256 % 16) ::
      hexDigitChar (n / 16 % 16) :: hexDigitChar (n % 16) ::
        ('\\' :: 'u' :: (hex4 m ++ suffix)) from by simp [hex4]]
  simp [scanUni]
  rw [hex4Val_hex4 _ (by omega)]
  simp [hnot, hn2]
  exact scanUniLow_enc n m suffix (by omega) hm1 hm2

theorem scanEsc_uni (cs : List Char) :
    scanEsc ('u' :: cs) = scanUni cs := by
  simp [scanEsc]

theorem scanString_escChar (c : Char) (suffix : List Char) :
    scanString (escChar c ++ suffix) = consScan c (scanString suffix) := by
  by_cases h1 : c = '\\'
  · subst h1
    show scanString ('\\' :: '\\' :: suffix) = consScan '\\' (scanString suffix)
    simp [scanString, scanEsc]
  by_cases h2 : c = '"'
  · subst h2
    show scanString ('\\' :: '"' :: suffix) = consScan '"' (scanString suffix)
    simp [scanString, scanEsc]
  by_cases h3 : c = '\n'
  · subst h3
    show scanString ('\\' :: 'n' :: suffix) = consScan '\n' (scanString suffix)
    simp [scanString, scanEsc]
  by_cases h4 : c = '\r'
  · subst h4
    show scanString ('\\' :: 'r' :: suffix) = consScan '\r' (scanString suffix)
    simp [scanString, scanEsc]
  by_cases h5 : c = '\t'
  · subst h5
    show scanString ('\\' :: 't' :: suffix) = consScan '\t' (scanString suffix)
    simp [scanString, scanEsc]
  by_cases h6 : c = '\x08'
  · subst h6
    show scanString ('\\' :: 'b' :: suffix) = consScan '\x08' (scanString suffix)
    simp [scanString, scanEsc]
  by_cases h7 : c = '\x0c'
  · subst h7
    show scanString ('\\' :: 'f' :: suffix) = consScan '\x0c' (scanString suffix)
    simp [scanString, scanEsc]
  by_cases h8 : (0x20 ≤ c.toNat && c.toNat ≤ 0x7e) = true
  · have h8' := h8
    simp only [Bool.and_eq_true, decide_eq_true_eq] at h8'
    have hesc : escChar c = [c] := by
      simp [escChar, h1, h2, h3, h4, h5, h6, h7, h8]
    rw [hesc]
    rw [List.cons_append, List.nil_append]
    have hn : ¬ c.toNat < 0x20 := by omega
    simp [scanString, h1, h2, hn]
  by_cases h9 : c.toNat < 0x10000
  · have hesc : escChar c = '\\' :: 'u' :: hex4 c.toNat := by
      simp [escChar, h1, h2, h3, h4, h5, h6, h7, h8, h9]
    have hval : c.toNat < 0xD800 ∨ 0xE000 ≤ c.toNat := by
      rcases char_toNat_valid c with h | ⟨h, _⟩
      · exact Or.inl h
      · exact Or.inr h
    rw [hesc]
    simp only [hex4, List.cons_append, List.nil_append]
    simp [scanString, scanEsc, scanUni]
    rw [hex4Val_hex4 _ (by omega)]
    simp [hval, Char.ofNat_toNat]
  · have hlt : c.toNat < 0x110000 := by
      rcases char_toNat_valid c with h | ⟨_, h⟩
      · omega
      · exact h
    have hesc : escChar c =
        ('\\' :: 'u' :: hex4 (0xD800 + (c.toNat - 0x10000) / 0x400)) ++
          ('\\' :: 'u' :: hex4 (0xDC00 + (c.toNat - 0x10000) % 0x400)) := by
      simp [escChar, h1, h2, h3, h4, h5, h6, h7, h8, h9]
    rw [hesc]
    set n1 := 0xD800 + (c.toNat - 0x10000) / 0x400 with hn1
    set n2 := 0xDC00 + (c.toNat - 0x10000) % 0x400 with hn2
    have hq : (c.toNat - 0x10000) / 0x400 < 0x400 := by omega
    have hr : (c.toNat - 0x10000) % 0x400 < 0x400 := by omega
    have harith : 0x10000 + (n1 - 0xD800) * 0x400 + (n2 - 0xDC00) = c.toNat := by
      omega
    rw [show ('\\' :: 'u' :: hex4 n1) ++ ('\\' :: 'u' :: hex4 n2) ++ suffix =
      '\\' :: 'u' :: (hex4 n1 ++ ('\\' :: 'u' :: (hex4 n2 ++ suffix))) from by simp]
    rw [show scanString ('\\' :: 'u' :: (hex4 n1 ++ ('\\' :: 'u' :: (hex4 n2 ++ suffix)))) =
      scanEsc ('u' :: (hex4 n1 ++ ('\\' :: 'u' :: (hex4 n2 ++ suffix)))) from by
        simp [scanString]]
    rw [scanEsc_uni]
    rw [scanUni_enc_pair n1 n2 suffix (by omega) (by omega) (by omega) (by omega)]
    rw [harith, Char.ofNat_toNat]

theorem scanString_enc (l : List Char) (rest : List Char) :
    scanString ((l.map escChar).flatten ++ '"' :: rest) = some (l, rest) := by
  induction l with
  | nil => simp [scanString]
  | cons c cs ih =>
    simp only [List.map_cons, List.flatten_cons, List.append_assoc]
    rw [scanString_escChar, ih]
    rfl

theorem wsChar_space : wsChar ' ' = true := by decide
theorem wsChar_nl : wsChar '\n' = true := by decide
theorem wsChar_quote : wsChar '"' = false := by decide
theorem wsChar_rb : wsChar ']' = false := by decide
theorem wsChar_lb : wsChar '[' = false := by decide
theorem wsChar_comma : wsChar ',' = false := by decide
theorem wsChar_colon : wsChar ':' = false := by decide
theorem wsChar_rbrace : wsChar '}' = false := by decide

theorem skipWs_spaces8 (X : List Char) :
    skipWs ("        ".toList ++ '"' :: X) = '"' :: X := by
  simp [skipWs, List.dropWhile_cons, wsChar_space, wsChar_quote,
    show "        ".toList = [' ', ' ', ' ', ' ', ' ', ' ', ' ', ' '] from rfl]

theorem skipWs_close (X : List Char) :
    skipWs ('\n' :: ' ' :: ' ' :: ' ' :: ' ' :: ']' :: X) = ']' :: X := by
  simp [skipWs, List.dropWhile_cons, wsChar_space, wsChar_nl, wsChar_rb]

theorem parseTagsItems_ws (fuel : Nat) (c : Char) (cs : List Char)
    (hc : wsChar c = true) : parseTagsItems fuel (c :: cs) = parseTagsItems fuel cs := by
  cases fuel with
  | zero => rfl
  | succ f =>
    simp only [parseTagsItems]
    rw [show skipWs (c :: cs) = skipWs cs from by simp [skipWs, List.dropWhile_cons, hc]]

theorem parseTagsItems_last (f : Nat) (t : String) (rest : List Char) :
    parseTagsItems (f + 1)
      ("        ".toList ++ (encString t ++ ('\n' :: ' ' :: ' ' :: ' ' :: ' ' :: ']' :: rest))) =
      some ([t], rest) := by
  simp only [parseTagsItems]
  rw [show "        ".toList ++ (encString t ++ ('\n' :: ' ' :: ' ' :: ' ' :: ' ' :: ']' :: rest)) =
    "        ".toList ++ '"' :: ((t.toList.map escChar).flatten ++
      '"' :: ('\n' :: ' ' :: ' ' :: ' ' :: ' ' :: ']' :: rest)) from by simp [encString]]
  rw [skipWs_spaces8]
  simp
  rw [scanString_enc]
  simp
  rw [skipWs_close]
  simp

theorem parseTagsItems_more (f : Nat) (t : String) (Z : List Char) :
    parseTagsItems (f + 1) ("        ".toList ++ (encString t ++ (',' :: '\n' :: Z))) =
      Option.map (fun r => (t :: r.1, r.2)) (parseTagsItems f Z) := by
  simp only [parseTagsItems]
  rw [show "        ".toList ++ (encString t ++ (',' :: '\n' :: Z)) =
    "        ".toList ++ '"' :: ((t.toList.map escChar).flatten ++ '"' :: (',' :: '\n' :: Z))
    from by simp [encString]]
  rw [skipWs_spaces8]
  simp
  rw [scanString_enc]
  simp
  rw [show skipWs (',' :: '\n' :: Z) = ',' :: '\n' :: Z from by
    simp [skipWs, List.dropWhile_cons, wsChar_comma]]
  simp
  rw [parseTagsItems_ws f '\n' Z wsChar_nl]
  cases parseTagsItems f Z with
  | none => rfl
  | some r => rfl

theorem parseTagsItems_enc (ts : List String) (h : ts ≠ []) (rest : List Char)
    (fuel : Nat) (hf : ts.length ≤ fuel) :
    parseTagsItems fuel
      (joinSep [',', '\n'] (ts.map (fun t => "        ".toList ++ encString t)) ++
        ('\n' :: ' ' :: ' ' :: ' ' :: ' ' :: ']' :: rest)) = some (ts, rest) := by
  induction ts generalizing fuel with
  | nil => exact absurd rfl h
  | cons t ts' ih =>
    cases fuel with
    | zero => simp at hf
    | succ f =>
      cases ts' with
      | nil =>
        simp only [List.map_cons, List.map_nil, joinSep, List.append_assoc]
        exact parseTagsItems_last f t rest
      | cons t2 ts'' =>
        simp only [List.map_cons, joinSep, List.append_assoc, List.cons_append,
          List.nil_append]
        rw [parseTagsItems_more]
        rw [show ("        ".toList ++ encString t2) ::
            List.map (fun t => "        ".toList ++ encString t) ts'' =
          List.map (fun t => "        ".toList ++ encString t) (t2 :: ts'') from rfl]
        rw [ih (by simp) f (by simpa using hf)]
        rfl

theorem joinSep_length_ge (sep : List Char) (xs : List (List Char))
    (h : ∀ x ∈ xs, 1 ≤ x.length) : xs.length ≤ (joinSep sep xs).length := by
  induction xs with
  | nil => simp [joinSep]
  | cons x rest ih =>
    cases rest with
    | nil => simpa [joinSep] using h x (by simp)
    | cons y rest' =>
      have h1 := h x (by simp)
      have h2 := ih (fun z hz => h z (by simp [hz]))
      simp only [joinSep, List.length_append, List.length_cons]
      simp at h2 ⊢
      omega

theorem encItem_length (t : String) : 1 ≤ ("        ".toList ++ encString t).length := by
  simp

theorem skipWs_nl_item (t : String) (Z : List Char) :
    skipWs ('\n' :: (("        ".toList ++ encString t) ++ Z)) =
      '"' :: ((t.toList.map escChar).flatten ++ ('"' :: Z)) := by
  rw [show ('\n' :: (("        ".toList ++ encString t) ++ Z)) =
    '\n' :: ' ' :: ' ' :: ' ' :: ' ' :: ' ' :: ' ' :: ' ' :: ' ' ::
      '"' :: ((t.toList.map escChar).flatten ++ ('"' :: Z)) from by simp [encString]]
  simp [skipWs, List.dropWhile_cons, wsChar_nl, wsChar_space, wsChar_quote]

theorem parseTags_step (rest : List Char) (c2 : Char) (rest2 : List Char)
    (h : skipWs rest = c2 :: rest2) (hne : ¬ c2 = ']') :
    parseTags ('[' :: rest) = parseTagsItems (rest.length + 1) rest := by
  simp only [parseTags]
  rw [show skipWs ('[' :: rest) = '[' :: rest from by
    simp [skipWs, List.dropWhile_cons, wsChar_lb]]
  simp [h, hne]

theorem parseTags_encTags (ts : List String) (rest : List Char) :
    parseTags (encTags ts ++ rest) = some (ts, rest) := by
  cases ts with
  | nil =>
    rw [show encTags [] ++ rest = '[' :: ']' :: rest from rfl]
    simp only [parseTags]
    rw [show skipWs ('[' :: ']' :: rest) = '[' :: ']' :: rest from by
      simp [skipWs, List.dropWhile_cons, wsChar_lb]]
    simp
    rw [show skipWs (']' :: rest) = ']' :: rest from by
      simp [skipWs, List.dropWhile_cons, wsChar_rb]]
    simp
  | cons t ts' =>
    rw [show encTags (t :: ts') ++ rest =
      '[' :: ('\n' ::
        (joinSep [',', '\n']
            ((t :: ts').map (fun s => "        ".toList ++ encString s)) ++
          ('\n' :: ' ' :: ' ' :: ' ' :: ' ' :: ']' :: rest))) from by
      simp [encTags]]
    obtain ⟨Z, hZ⟩ :
        ∃ Z, joinSep [',', '\n']
            ((t :: ts').map (fun s => "        ".toList ++ encString s)) ++
          ('\n' :: ' ' :: ' ' :: ' ' :: ' ' :: ']' :: rest) =
          ("        ".toList ++ encString t) ++ Z := by
      cases ts' with
      | nil => exact ⟨'\n' :: ' ' :: ' ' :: ' ' :: ' ' :: ']' :: rest, by simp [joinSep]⟩
      | cons t2 ts'' =>
        refine ⟨(',' :: '\n' ::
          joinSep [',', '\n']
            ((t2 :: ts'').map (fun s => "        ".toList ++ encString s))) ++
          ('\n' :: ' ' :: ' ' :: ' ' :: ' ' :: ']' :: rest), ?_⟩
        simp [joinSep]
    have hskip : skipWs ('\n' ::
        (joinSep [',', '\n']
            ((t :: ts').map (fun s => "        ".toList ++ encString s)) ++
          ('\n' :: ' ' :: ' ' :: ' ' :: ' ' :: ']' :: rest))) =
        '"' :: ((t.toList.map escChar).flatten ++ ('"' :: Z)) := by
      rw [show ('\n' ::
          (joinSep [',', '\n']
              ((t :: ts').map (fun s => "        ".toList ++ encString s)) ++
            ('\n' :: ' ' :: ' ' :: ' ' :: ' ' :: ']' :: rest))) =
        '\n' :: (("        ".toList ++ encString t) ++ Z) from by rw [hZ]]
      exact skipWs_nl_item t Z
    rw [parseTags_step _ '"' _ hskip (by decide)]
    rw [parseTagsItems_ws _ '\n' _ wsChar_nl]
    apply parseTagsItems_enc (t :: ts') (by simp) rest
    have hlen := joinSep_length_ge [',', '\n']
      ((t :: ts').map (fun s => "        ".toList ++ encString s))
      (by
        intro x hx
        obtain ⟨s, _, hs⟩ := List.mem_map.mp hx
        rw [← hs]
        exact encItem_length s)
    simp only [List.length_map, List.length_cons] at hlen
    simp only [List.length_cons, List.length_append]
    omega

theorem skipWs_nl4_item (k : String) (Z : List Char) :
    skipWs ('\n' :: ("    ".toList ++ (encString k ++ Z))) =
      '"' :: ((k.toList.map escChar).flatten ++ ('"' :: Z)) := by
  rw [show ('\n' :: ("    ".toList ++ (encString k ++ Z))) =
    '\n' :: ' ' :: ' ' :: ' ' :: ' ' ::
      '"' :: ((k.toList.map escChar).flatten ++ ('"' :: Z)) from by simp [encString]]
  simp [skipWs, List.dropWhile_cons, wsChar_nl, wsChar_space, wsChar_quote]

theorem parseTags_ws (c : Char) (cs : List Char) (hc : wsChar c = true) :
    parseTags (c :: cs) = parseTags cs := by
  simp only [parseTags]
  rw [show skipWs (c :: cs) = skipWs cs from by simp [skipWs, List.dropWhile_cons, hc]]

theorem parseEntries_ws (fuel : Nat) (c : Char) (cs : List Char)
    (hc : wsChar c = true) : parseEntries fuel (c :: cs) = parseEntries fuel cs := by
  cases fuel with
  | zero => rfl
  | succ f =>
    simp only [parseEntries]
    rw [show skipWs (c :: cs) = skipWs cs from by simp [skipWs, List.dropWhile_cons, hc]]

theorem parseEntries_last (f : Nat) (k : String) (v : List String) (rest : List Char) :
    parseEntries (f + 1)
      ('\n' :: ("    ".toList ++ (encString k ++ (':' :: ' ' ::
        (encTags v ++ ('\n' :: '}' :: rest)))))) = some ([(k, v)], rest) := by
  simp only [parseEntries]
  rw [skipWs_nl4_item k (':' :: ' ' :: (encTags v ++ ('\n' :: '}' :: rest)))]
  simp
  rw [scanString_enc]
  simp
  rw [show skipWs (':' :: ' ' :: (encTags v ++ ('\n' :: '}' :: rest))) =
    ':' :: ' ' :: (encTags v ++ ('\n' :: '}' :: rest)) from by
      simp [skipWs, List.dropWhile_cons, wsChar_colon]]
  simp
  rw [parseTags_ws ' ' _ wsChar_space, parseTags_encTags]
  simp
  rw [show skipWs ('\n' :: '}' :: rest) = '}' :: rest from by
    simp [skipWs, List.dropWhile_cons, wsChar_nl, wsChar_rbrace]]
  simp

theorem parseEntries_more (f : Nat) (k : String) (v : List String) (Z : List Char) :
    parseEntries (f + 1)
      ('\n' :: ("    ".toList ++ (encString k ++ (':' :: ' ' ::
        (encTags v ++ (',' :: '\n' :: Z)))))) =
      Option.map (fun r => ((k, v) :: r.1, r.2)) (parseEntries f ('\n' :: Z)) := by
  simp only [parseEntries]
  rw [skipWs_nl4_item k (':' :: ' ' :: (encTags v ++ (',' :: '\n' :: Z)))]
  simp
  rw [scanString_enc]
  simp
  rw [show skipWs (':' :: ' ' :: (encTags v ++ (',' :: '\n' :: Z))) =
    ':' :: ' ' :: (encTags v ++ (',' :: '\n' :: Z)) from by
      simp [skipWs, List.dropWhile_cons, wsChar_colon]]
  simp
  rw [parseTags_ws ' ' _ wsChar_space, parseTags_encTags]
  simp
  rw [show skipWs (',' :: '\n' :: Z) = ',' :: '\n' :: Z from by
    simp [skipWs, List.dropWhile_cons, wsChar_comma]]
  simp
  cases parseEntries f ('\n' :: Z) with
  | none => rfl
  | some r => rfl

theorem parseEntries_enc (db : Db) (h : db ≠ []) (rest : List Char)
    (fuel : Nat) (hf : db.length ≤ fuel) :
    parseEntries fuel
      ('\n' :: (joinSep [',', '\n'] (db.map encEntry) ++ ('\n' :: '}' :: rest))) =
      some (db, rest) := by
  induction db generalizing fuel with
  | nil => exact absurd rfl h
  | cons e es ih =>
    obtain ⟨k, v⟩ := e
    cases fuel with
    | zero => simp at hf
    | succ f =>
      cases es with
      | nil =>
        rw [show ('\n' :: (joinSep [',', '\n'] ([(k, v)].map encEntry) ++
            ('\n' :: '}' :: rest))) =
          ('\n' :: ("    ".toList ++ (encString k ++ (':' :: ' ' ::
            (encTags v ++ ('\n' :: '}' :: rest)))))) from by
          simp [joinSep, encEntry]]
        exact parseEntries_last f k v rest
      | cons e2 es' =>
        rw [show ('\n' :: (joinSep [',', '\n'] (((k, v) :: e2 :: es').map encEntry) ++
            ('\n' :: '}' :: rest))) =
          ('\n' :: ("    ".toList ++ (encString k ++ (':' :: ' ' ::
            (encTags v ++ (',' :: '\n' ::
              (joinSep [',', '\n'] ((e2 :: es').map encEntry) ++
                ('\n' :: '}' :: rest)))))))) from by
          simp [joinSep, encEntry]]
        rw [parseEntries_more]
        rw [ih (by simp) f (by simpa using hf)]
        rfl

theorem wsChar_lbrace : wsChar '{' = false := by decide

theorem encEntry_length (e : String × List String) : 1 ≤ (encEntry e).length := by
  simp [encEntry]

theorem loads_cons (rest : List Char) (c2 : Char) (rest2 : List Char)
    (h : skipWs rest = c2 :: rest2) (hne : ¬ c2 = '}') :
    loads (String.mk ('{' :: rest)) =
      (match parseEntries (('{' :: rest).length + 1) rest with
       | some (es, rest3) => if (skipWs rest3).isEmpty then some (buildDict es) else none
       | none => none) := by
  simp only [loads]
  rw [show (String.mk ('{' :: rest)).toList = '{' :: rest from rfl]
  rw [show skipWs ('{' :: rest) = '{' :: rest from by
    simp [skipWs, List.dropWhile_cons, wsChar_lbrace]]
  simp [h, hne]

theorem loads_dumps (db : Db) : loads (dumps db) = some (buildDict db) := by
  cases db with
  | nil => decide
  | cons e es =>
    obtain ⟨k, v⟩ := e
    rw [show dumps ((k, v) :: es) =
      String.mk ('{' :: ('\n' :: (joinSep [',', '\n'] (((k, v) :: es).map encEntry) ++
        ('\n' :: '}' :: [])))) from by simp [dumps]]
    obtain ⟨Z, hZ⟩ :
        ∃ Z, joinSep [',', '\n'] (((k, v) :: es).map encEntry) ++
          ('\n' :: '}' :: []) = "    ".toList ++ (encString k ++ Z) := by
      cases es with
      | nil => exact ⟨':' :: ' ' :: (encTags v ++ ('\n' :: '}' :: [])), by simp [joinSep, encEntry]⟩
      | cons e2 es' =>
        refine ⟨':' :: ' ' :: (encTags v ++ ((',' :: '\n' ::
          joinSep [',', '\n'] ((e2 :: es').map encEntry)) ++
          ('\n' :: '}' :: []))), ?_⟩
        simp [joinSep, encEntry]
    have hskip : skipWs ('\n' :: (joinSep [',', '\n'] (((k, v) :: es).map encEntry) ++
        ('\n' :: '}' :: []))) =
        '"' :: ((k.toList.map escChar).flatten ++ ('"' :: Z)) := by
      rw [show ('\n' :: (joinSep [',', '\n'] (((k, v) :: es).map encEntry) ++
          ('\n' :: '}' :: []))) =
        '\n' :: ("    ".toList ++ (encString k ++ Z)) from by rw [hZ]]
      exact skipWs_nl4_item k Z
    rw [loads_cons _ '"' _ hskip (by decide)]
    rw [parseEntries_enc ((k, v) :: es) (by simp) [] _ ?bound]
    · simp [skipWs]
    case bound =>
      have hlen := joinSep_length_ge [',', '\n'] (((k, v) :: es).map encEntry)
        (by
          intro x hx
          obtain ⟨s, _, hs⟩ := List.mem_map.mp hx
          rw [← hs]
          exact encEntry_length s)
      simp only [List.length_map, List.length_cons] at hlen
      simp only [List.length_cons, List.length_append]
      omega

theorem foldl_dbSet_append (es : Db) : ∀ acc : Db,
    (∀ e ∈ es, dbContains acc e.1 = false) → (es.map Prod.fst).Nodup →
    es.foldl (fun acc e => dbSet acc e.1 e.2) acc = acc ++ es := by
  induction es with
  | nil => simp
  | cons e rest ih =>
    intro acc hdis hnd
    simp only [List.foldl_cons]
    have h1 : dbSet acc e.1 e.2 = acc ++ [e] := by
      rw [dbSet_of_not_contains _ (hdis e (by simp))]
    rw [h1, ih (acc ++ [e]) ?_ (List.nodup_cons.mp (by simpa using hnd)).2]
    · simp
    · intro e' he'
      have hno := hdis e' (List.mem_cons_of_mem e he')
      have hne : e.1 ≠ e'.1 := by
        intro hk
        exact (List.nodup_cons.mp (by simpa using hnd)).1
          (List.mem_map.mpr ⟨e', he', hk.symm⟩)
      simp only [dbContains, List.any_append, Bool.or_eq_false_iff]
      refine ⟨by simpa [dbContains] using hno, by simpa using hne⟩

theorem buildDict_self (db : Db) (hnd : (db.map Prod.fst).Nodup) :
    buildDict db = db := by
  have h := foldl_dbSet_append db [] (by simp [dbContains]) hnd
  simpa [buildDict] using h

theorem dropWhile_concat_ne_nil {p : Char → Bool} (xs : List Char) {a : Char}
    (ha : p a = false) : List.dropWhile p (xs ++ [a]) ≠ [] := by
  rw [List.dropWhile_append]
  by_cases he : (List.dropWhile p xs).isEmpty
  · simp [he, List.dropWhile_cons, ha]
  · simp [he]

theorem pyStrip_brace_ne (l : List Char) : pyStrip (String.mk ('{' :: l)) ≠ "" := by
  have hb : pySpace '{' = false := by decide
  intro h
  have hl : stripList ('{' :: l) = [] := by
    have := congrArg String.toList h
    simpa [pyStrip] using this
  rw [stripList] at hl
  rw [List.dropWhile_cons, hb] at hl
  simp only [Bool.false_eq_true, if_false] at hl
  have hrev : ('{' :: l).reverse = l.reverse ++ ['{'] := by simp
  rw [hrev] at hl
  have := dropWhile_concat_ne_nil (p := pySpace) l.reverse hb
  rw [show List.dropWhile pySpace (l.reverse ++ ['{']) = [] from by
    simpa using congrArg List.reverse hl] at this
  exact this rfl

theorem pyStrip_dumps_ne (db : Db) : pyStrip (dumps db) ≠ "" := by
  cases db with
  | nil => decide
  | cons e es =>
    rw [show dumps (e :: es) = String.mk ('{' :: ('\n' ::
      (joinSep [',', '\n'] ((e :: es).map encEntry) ++ ['\n', '}']))) from by simp [dumps]]
    exact pyStrip_brace_ne _

theorem saveRetryGo_written {content : String} {oc : Nat → SaveOutcome} {c : String} :
    ∀ (r attempt delay : Nat) (sleeps : List Nat),
    (saveRetryGo content oc r attempt delay sleeps).written = some c → c = content := by
  intro r
  induction r with
  | zero => intro _ _ _ h; simp [saveRetryGo] at h
  | succ n ih =>
    intro attempt delay sleeps h
    rw [saveRetryGo] at h
    cases hoc : oc attempt with
    | ok =>
      rw [hoc] at h
      simp at h
      exact h.symm
    | exc =>
      rw [hoc] at h
      by_cases hn : n = 0
      · rw [if_pos hn] at h
        simp at h
      · rw [if_neg hn] at h
        exact ih _ _ _ h
    | winPerm =>
      rw [hoc] at h
      exact ih _ _ _ h

/-- C2: a successful `_save_db_with_retry` replaces the database file with
the `json.dump` serialisation of the store; `_load_db` on that file parses
it back to an equal path→tag-list mapping (no exception, no backup
rename).  Holds for every store whose keys are distinct, as a Python dict
guarantees. -/
theorem save_load_roundtrip (db : Db) (oc : Nat → SaveOutcome) (c : String)
    (hnd : (db.map Prod.fst).Nodup)
    (hw : (saveDbWithRetry (dumps db) oc).written = some c) :
    loadDb true c false = (db, false) := by
  have hc : c = dumps db := saveRetryGo_written 3 0 1 [] hw
  subst hc
  have hstrip := pyStrip_dumps_ne db
  have hloads : loads (dumps db) = some db := by
    rw [loads_dumps, buildDict_self db hnd]
  simp [loadDb, hstrip, hloads]

/-- Witness for C2: a concrete two-entry store survives the
save-then-load round trip byte-for-byte. -/
theorem save_load_roundtrip_witness :
    (saveDbWithRetry (dumps [("a", ["x", "y"]), ("b", ["z"])]) (fun _ => .ok)).written =
      some (dumps [("a", ["x", "y"]), ("b", ["z"])]) ∧
    loadDb true (dumps [("a", ["x", "y"]), ("b", ["z"])]) false =
      ([("a", ["x", "y"]), ("b", ["z"])], false) := by
  refine ⟨rfl, save_load_roundtrip [("a", ["x", "y"]), ("b", ["z"])]
    (fun _ => .ok) _ (by decide) rfl⟩
